import Mathlib

/-!
Verification of the `ocr-rename` pipeline (src/ocr_rename/) against its
natural-language specification.

The Python source is shallowly embedded:
* strings are Lean `String` (a wrapper around `List Char`); Python `str.lower()`
  is modelled character-wise by `strLower` (ASCII case mapping, as `Char.toLower`);
* Python `float` values (only the `confidence` field and its CSV round trip) are
  modelled by exact rationals `ℚ`, with decimal printing/parsing mirroring
  `str(float)` / `float(str)` on decimal-representable values;
* the target directory is modelled as a duplicate-free `List String` of file
  names; `Path.rename` is modelled as failing (OSError) when the destination
  name already exists, and otherwise moving the name (non-overwriting
  semantics);
* the thread pool, the Batch API and the monotonic clock are modelled by
  explicit parameters (a completion order, per-file outcome oracles, and
  explicit clock readings).
-/

set_option maxHeartbeats 1600000

/-! ## String helpers (models of Python string primitives) -/

/-- Model of Python `str.lower()`: character-wise ASCII lowering. -/
def strLower (s : String) : String := ⟨s.data.map Char.toLower⟩

/-- Model of Python `str.split()` (no argument): split on runs of whitespace,
dropping empty pieces.  `acc` holds the current word reversed. -/
def pyWordsAux : List Char → List Char → List (List Char)
  | [], acc => if acc = [] then [] else [acc.reverse]
  | c :: rest, acc =>
    if c.isWhitespace then
      if acc = [] then pyWordsAux rest []
      else acc.reverse :: pyWordsAux rest []
    else pyWordsAux rest (c :: acc)

/-- Model of Python `" ".join(words)`. -/
def joinSpace : List (List Char) → List Char
  | [] => []
  | [w] => w
  | w :: ws => w ++ ' ' :: joinSpace ws

/-- Model of Python `" ".join(s.split())`: collapse whitespace runs to single
spaces and trim both ends. -/
def collapseSpaces (cs : List Char) : List Char :=
  joinSpace (pyWordsAux cs [])

/-- Model of `pathlib.Path.suffix` on a plain file name: the extension from the
last dot, or `""` when there is no dot or the only dot is the leading one
(hidden files).  Returns the characters after the last dot, or `none`. -/
def afterLastDot : List Char → Option (List Char)
  | [] => none
  | c :: rest =>
    match afterLastDot rest with
    | some tl => some tl
    | none => if c = '.' then some rest else none

/-- Model of the Python test `f.suffix.lower() == ".pdf"` used to seed the
conflict registry. -/
def isPdfFile (name : String) : Bool :=
  match name.data with
  | [] => false
  | c0 :: rest =>
    -- a leading dot does not start an extension (hidden file)
    match afterLastDot (if c0 = '.' then rest else c0 :: rest) with
    | some tl => strLower (String.mk tl) = "pdf" ∧ tl ≠ []
    | none => false

/-! ## review_file.py: data model, sanitizer, builder, record construction -/

/-- Embedding of the `ReviewEntry` dataclass (`review_file.py`), with
`confidence : float` modelled as `ℚ`. -/
structure ReviewEntry where
  original_filename : String
  suggested_title : String
  suggested_author : String
  new_filename : String
  confidence : ℚ
  approve : String
  language : String := ""
  edition : String := ""
  notes : String := ""
deriving DecidableEq, Repr

/-- The characters stripped by `sanitize_filename` (`invalid = '<>:"/\\|?*'`). -/
def invalidChars : List Char := ['<', '>', ':', '"', '/', '\\', '|', '?', '*']

/-- The sequential `name.replace(ch, "")` loop of `sanitize_filename`. -/
def removeInvalid (cs : List Char) : List Char :=
  invalidChars.foldl (fun s ch => s.filter (fun c => c ≠ ch)) cs

/-- Embedding of `sanitize_filename` (`review_file.py`): strip invalid
characters, collapse whitespace, truncate to 240 characters. -/
def sanitize_filename (name : String) : String :=
  let cs := removeInvalid name.data
  let collapsed := collapseSpaces cs
  ⟨if collapsed.length > 240 then collapsed.take 240 else collapsed⟩

/-- Embedding of `build_new_filename` (`review_file.py`). -/
def build_new_filename (title author : String) : String :=
  let name := if author ≠ "" ∧ author ≠ "Unknown" then title ++ " - " ++ author else title
  sanitize_filename name ++ ".pdf"

/-- `CONFIDENCE_THRESHOLD = 0.8` from `config.py` (written with `mkRat` so
that comparisons against it reduce in the kernel; see
`CONFIDENCE_THRESHOLD_eq`). -/
def CONFIDENCE_THRESHOLD : ℚ := mkRat 8 10

theorem CONFIDENCE_THRESHOLD_eq : CONFIDENCE_THRESHOLD = 0.8 := by
  norm_num [CONFIDENCE_THRESHOLD]

/-- The loosely-typed result dict handed to `make_entry`; absent keys are
`none`. -/
structure ApiResult where
  title : Option String := none
  author : Option String := none
  confidence : Option ℚ := none
  language : Option String := none
  edition : Option String := none
  notes : Option String := none
deriving DecidableEq, Repr

/-- Embedding of `make_entry` (`review_file.py`): defaults, filename building,
and the confidence-to-approval policy. -/
def make_entry (original_filename : String) (result : ApiResult) : ReviewEntry :=
  let title := result.title.getD "Unknown"
  let author := result.author.getD "Unknown"
  let confidence : ℚ := (result.confidence.getD 0)
  let new_filename := build_new_filename title author
  let approve := if confidence ≥ CONFIDENCE_THRESHOLD then "yes" else "review"
  { original_filename := original_filename
    suggested_title := title
    suggested_author := author
    new_filename := new_filename
    confidence := confidence
    approve := approve
    language := result.language.getD ""
    edition := result.edition.getD ""
    notes := result.notes.getD "" }

example : build_new_filename "Title" "Unknown" = "Title.pdf" := by decide
example : build_new_filename "Title" "Author" = "Title - Author.pdf" := by decide
example : isPdfFile "Book.PDF" = true := by decide
example : isPdfFile "Book.txt" = false := by decide
example : isPdfFile ".pdf" = false := by decide
example : sanitize_filename "a  b<c>" = "a bc" := by decide

/-! ## renamer.py: conflict resolution -/

/-- Decimal rendering of a natural number, by fuel-based structural recursion
so that it reduces in the kernel (`fuel = n + 1` always suffices). -/
def natReprAux (fuel : ℕ) (n : ℕ) : List Char :=
  match fuel with
  | 0 => []
  | fuel + 1 =>
    if n < 10 then [Nat.digitChar n]
    else natReprAux fuel (n / 10) ++ [Nat.digitChar (n % 10)]

/-- Decimal rendering of a natural number (the `{counter}` interpolation in
`f"{stem} ({counter}).pdf"`). -/
def natRepr (n : ℕ) : List Char := natReprAux (n + 1) n

/-- The candidate name `f"{stem} ({counter}).pdf"` tried by `resolve_conflicts`. -/
def candidateName (stem : String) (counter : ℕ) : String :=
  stem ++ " (" ++ String.mk (natRepr counter) ++ ").pdf"

/-- The `seen` dict of `resolve_conflicts`: lowercased name → value (the code
only ever stores `1`).  Insertion conses, lookup takes the first match, which
models dict overwrite. -/
abbrev Seen : Type := List (String × ℕ)

def seenLookup (s : Seen) (k : String) : Option ℕ :=
  match s with
  | ([] : List (String × ℕ)) => none
  | kv :: rest => if kv.1 = k then some kv.2 else seenLookup rest k

def seenInsert (s : Seen) (k : String) (v : ℕ) : Seen :=
  ((k, v) :: s : List (String × ℕ))

def seenLength (s : Seen) : ℕ := (s : List (String × ℕ)).length

/-- Seeding loop of `resolve_conflicts`: register every `.pdf` file already in
the directory, lowercased, with value 1. -/
def seedSeen (pdf_dir : List String) : Seen :=
  pdf_dir.foldl (fun s f => if isPdfFile f then seenInsert s (strLower f) 1 else s)
    ([] : List (String × ℕ))

/-- Model of `name[:-4]` (strip the `.pdf` suffix before appending a counter). -/
def dropLast4 (s : String) : String :=
  ⟨s.data.take (s.data.length - 4)⟩

/-- The `while True` search of `resolve_conflicts`, made total with explicit
fuel (the callers pass more fuel than there are registered names, so the
search always finds a free candidate before the fuel runs out). -/
def findFreeName (seen : Seen) (stem : String) (counter : ℕ) : ℕ → String
  | 0 => candidateName stem counter
  | fuel + 1 =>
    let candidate := candidateName stem counter
    if (seenLookup seen (strLower candidate)).isSome then
      findFreeName seen stem (counter + 1) fuel
    else candidate

/-- The per-entry loop of `resolve_conflicts`, also returning the final
registry so that intermediate registries can be named in theorems. -/
def resolveConflictsFull (seen : Seen) : List ReviewEntry → List ReviewEntry × Seen
  | [] => ([], seen)
  | entry :: rest =>
    let name := entry.new_filename
    let key := strLower name
    if key = strLower entry.original_filename then
      -- "Don't conflict with original if it's the same file"
      let seen1 := if (seenLookup seen key).isNone then seenInsert seen key 1 else seen
      let next := resolveConflictsFull seen1 rest
      (entry :: next.1, next.2)
    else
      match seenLookup seen key with
      | some v =>
        let stem := dropLast4 name
        let newName := findFreeName seen stem (v + 1) (seenLength seen + 1)
        let seen1 := seenInsert seen (strLower newName) 1
        let next := resolveConflictsFull seen1 rest
        ({ entry with new_filename := newName } :: next.1, next.2)
      | none =>
        let seen1 := seenInsert seen key 1
        let next := resolveConflictsFull seen1 rest
        (entry :: next.1, next.2)

/-- Embedding of `resolve_conflicts` (`renamer.py`). -/
def resolve_conflicts (pdf_dir : List String) (entries : List ReviewEntry) :
    List ReviewEntry :=
  (resolveConflictsFull (seedSeen pdf_dir) entries).1

/-! ## renamer.py: rename execution and undo -/

/-- One entry of the rename log (`{"original": ..., "new": ..., "status": ...}`). -/
structure LogEntry where
  original : String
  new : String
  status : String
deriving DecidableEq, Repr

/-- Model of `Path.rename` on a directory of names, with POSIX semantics:
fails (OSError) when the source is missing, otherwise moves the name,
silently replacing the destination if it already exists (so an overwriting
rename destroys the file previously held under the destination name). -/
def fsRename (d : List String) (src dst : String) : Option (List String) :=
  if src ∈ d then some (dst :: (d.erase src).erase dst) else none

/-- State threaded through the `rename_files` loop. -/
structure RenameState where
  dir : List String
  log : List LogEntry
  renamed : ℕ
  skipped : ℕ
  errors : ℕ
deriving DecidableEq, Repr

/-- One iteration of the `rename_files` loop over a resolved entry. -/
def renameStep (dry_run : Bool) (st : RenameState) (entry : ReviewEntry) : RenameState :=
  if entry.original_filename ∉ st.dir then
    -- SKIP (not found): no log entry is produced
    { st with skipped := st.skipped + 1 }
  else if entry.original_filename = entry.new_filename then
    -- SKIP (same name): no log entry is produced
    { st with skipped := st.skipped + 1 }
  else if dry_run then
    { st with log := st.log ++ [⟨entry.original_filename, entry.new_filename, "dry_run"⟩] }
  else
    match fsRename st.dir entry.original_filename entry.new_filename with
    | some d =>
      { st with dir := d,
                log := st.log ++ [⟨entry.original_filename, entry.new_filename, "renamed"⟩],
                renamed := st.renamed + 1 }
    | none =>
      { st with log := st.log ++ [⟨entry.original_filename, entry.new_filename, "error: rename failed"⟩],
                errors := st.errors + 1 }

/-- Embedding of `rename_files` (`renamer.py`): filter approved entries,
resolve conflicts, execute; the second component models the persisted log
(`_save_log` runs only when entries exist, not dry-run, and an output
directory was given). -/
def rename_files (pdf_dir : List String) (entries : List ReviewEntry)
    (dry_run : Bool) (has_output_dir : Bool) :
    RenameState × Option (List LogEntry) :=
  let approved := entries.filter (fun e => e.approve == "yes")
  let resolved := resolve_conflicts pdf_dir approved
  let final := resolved.foldl (renameStep dry_run) ⟨pdf_dir, [], 0, 0, 0⟩
  (final, if final.log ≠ [] ∧ dry_run = false ∧ has_output_dir then some final.log else none)

/-- State threaded through the `apply_undo` loop. -/
structure UndoState where
  dir : List String
  reversed : ℕ
  errors : ℕ
deriving DecidableEq, Repr

/-- One iteration of the `apply_undo` loop over a log entry. -/
def undoStep (st : UndoState) (entry : LogEntry) : UndoState :=
  if entry.status ≠ "renamed" then st
  else if entry.new ∉ st.dir then st   -- SKIP (not found)
  else
    match fsRename st.dir entry.new entry.original with
    | some d => { st with dir := d, reversed := st.reversed + 1 }
    | none => { st with errors := st.errors + 1 }

/-- Embedding of `apply_undo` (`renamer.py`): process the log in reverse
order, acting only on entries with status `renamed`. -/
def apply_undo (log : List LogEntry) (pdf_dir : List String) : UndoState :=
  log.reverse.foldl undoStep ⟨pdf_dir, 0, 0⟩

/-! ## Claim C6: the sanitizer and filename builder -/

theorem strData_append (s t : String) : (s ++ t).data = s.data ++ t.data := rfl

theorem mem_removeInvalid {c : Char} {cs : List Char} (h : c ∈ removeInvalid cs) :
    c ∈ cs ∧ c ∉ invalidChars := by
  have key : ∀ (l cs : List Char), c ∈ l.foldl (fun s ch => s.filter (fun x => x ≠ ch)) cs →
      c ∈ cs ∧ c ∉ l := by
    intro l
    induction l with
    | nil => intro cs h; simpa using h
    | cons ch tl ih =>
      intro cs h
      simp only [List.foldl_cons] at h
      obtain ⟨h1, h2⟩ := ih _ h
      rw [List.mem_filter] at h1
      refine ⟨h1.1, ?_⟩
      simp only [List.mem_cons, not_or]
      exact ⟨by simpa using h1.2, h2⟩
  exact key invalidChars cs h

theorem pyWordsAux_subset : ∀ (cs acc w : List Char),
    w ∈ pyWordsAux cs acc → ∀ c ∈ w, c ∈ cs ∨ c ∈ acc := by
  intro cs
  induction cs with
  | nil =>
    intro acc w hw c hc
    unfold pyWordsAux at hw
    split at hw
    · simp at hw
    · simp only [List.mem_singleton] at hw
      subst hw
      right
      simpa using hc
  | cons d tl ih =>
    intro acc w hw c hc
    unfold pyWordsAux at hw
    split at hw
    · split at hw
      · rcases ih [] w hw c hc with h | h
        · exact Or.inl (List.mem_cons_of_mem _ h)
        · simp at h
      · rcases List.mem_cons.mp hw with rfl | hw2
        · right; simpa using hc
        · rcases ih [] w hw2 c hc with h | h
          · exact Or.inl (List.mem_cons_of_mem _ h)
          · simp at h
    · rcases ih (d :: acc) w hw c hc with h | h
      · exact Or.inl (List.mem_cons_of_mem _ h)
      · rcases List.mem_cons.mp h with rfl | h2
        · exact Or.inl (List.mem_cons_self _ _)
        · exact Or.inr h2

theorem mem_joinSpace : ∀ (ws : List (List Char)) (c : Char),
    c ∈ joinSpace ws → c = ' ' ∨ ∃ w ∈ ws, c ∈ w := by
  intro ws
  induction ws with
  | nil => intro c h; simp [joinSpace] at h
  | cons w ws ih =>
    intro c h
    cases ws with
    | nil =>
      right
      exact ⟨w, by simp, by simpa [joinSpace] using h⟩
    | cons w2 ws2 =>
      rw [show joinSpace (w :: w2 :: ws2) = w ++ ' ' :: joinSpace (w2 :: ws2) from rfl] at h
      rcases List.mem_append.mp h with h1 | h1
      · exact Or.inr ⟨w, by simp, h1⟩
      · rcases List.mem_cons.mp h1 with rfl | h2
        · exact Or.inl rfl
        · rcases ih c h2 with h3 | ⟨w3, hw3, hc3⟩
          · exact Or.inl h3
          · exact Or.inr ⟨w3, by simp [hw3], hc3⟩

theorem sanitize_chars {name : String} {c : Char}
    (h : c ∈ (sanitize_filename name).data) : c ∉ invalidChars := by
  have hcol : c ∈ collapseSpaces (removeInvalid name.data) := by
    have h2 : c ∈ (if (collapseSpaces (removeInvalid name.data)).length > 240
        then (collapseSpaces (removeInvalid name.data)).take 240
        else collapseSpaces (removeInvalid name.data)) := h
    split at h2
    · exact List.take_subset _ _ h2
    · exact h2
  rcases mem_joinSpace _ c hcol with rfl | ⟨w, hw, hc⟩
  · decide
  · rcases pyWordsAux_subset _ [] w hw c hc with h2 | h2
    · exact (mem_removeInvalid h2).2
    · simp at h2

theorem sanitize_length (name : String) : (sanitize_filename name).length ≤ 240 := by
  show (if (collapseSpaces (removeInvalid name.data)).length > 240
        then (collapseSpaces (removeInvalid name.data)).take 240
        else collapseSpaces (removeInvalid name.data)).length ≤ 240
  split
  · rw [List.length_take]; exact min_le_left _ _
  · omega

/-- Claim C6: for every title and author, `build_new_filename` emits none of
the characters `< > : " / \ | ? *`, has length at most 244, ends in `.pdf`,
and equals the sanitized `"{title} - {author}.pdf"` when the author is
non-empty and not `"Unknown"`, else the sanitized `"{title}.pdf"`; in
particular `build_new_filename "Title" "Unknown" = "Title.pdf"` and
`build_new_filename "Title" "Author" = "Title - Author.pdf"`. -/
theorem claim_C6_build_filename (title author : String) :
    (∀ c ∈ (build_new_filename title author).data, c ∉ invalidChars) ∧
    (build_new_filename title author).length ≤ 244 ∧
    (∃ stem : String, build_new_filename title author = stem ++ ".pdf") ∧
    (build_new_filename title author =
      (if author ≠ "" ∧ author ≠ "Unknown"
        then sanitize_filename (title ++ " - " ++ author)
        else sanitize_filename title) ++ ".pdf") ∧
    build_new_filename "Title" "Unknown" = "Title.pdf" ∧
    build_new_filename "Title" "Author" = "Title - Author.pdf" := by
  have hdata : (build_new_filename title author).data =
      (sanitize_filename
        (if author ≠ "" ∧ author ≠ "Unknown" then title ++ " - " ++ author else title)).data
        ++ ".pdf".data := rfl
  refine ⟨?_, ?_, ?_, ?_, by decide, by decide⟩
  · intro c hc
    rw [hdata] at hc
    rcases List.mem_append.mp hc with h | h
    · exact sanitize_chars h
    · have h4 : ".pdf".data = ['.', 'p', 'd', 'f'] := rfl
      rw [h4] at h
      simp only [List.mem_cons, List.not_mem_nil, or_false] at h
      rcases h with rfl | rfl | rfl | rfl <;> decide
  · show (build_new_filename title author).data.length ≤ 244
    rw [hdata, List.length_append]
    have h1 := sanitize_length
      (if author ≠ "" ∧ author ≠ "Unknown" then title ++ " - " ++ author else title)
    have h2 : ".pdf".data.length = 4 := rfl
    simp only [String.length] at h1
    omega
  · exact ⟨sanitize_filename
      (if author ≠ "" ∧ author ≠ "Unknown" then title ++ " - " ++ author else title), rfl⟩
  · rw [show build_new_filename title author = sanitize_filename
      (if author ≠ "" ∧ author ≠ "Unknown" then title ++ " - " ++ author else title)
        ++ ".pdf" from rfl, apply_ite sanitize_filename]

/-! ## api_client.py: rate limiter, single/batch analysis -/

/-- Embedding of the `RateLimiter` object (`api_client.py`).  Clock values are
rationals (readings of `time.monotonic()`). -/
structure RateLimiter where
  max_per_minute : ℕ
  interval : ℚ
  last_request : ℚ
deriving DecidableEq, Repr

/-- `RateLimiter.__init__`: `interval = 60.0 / max_per_minute`, `last_request = 0.0`. -/
def RateLimiter.init (max_per_minute : ℕ) : RateLimiter :=
  ⟨max_per_minute, 60 / (max_per_minute : ℚ), 0⟩

/-- One serialized `wait()` call (the lock fully serializes callers).  `now` is
the `time.monotonic()` reading taken under the lock; `time.sleep(d)` suspends
for at least `d`, and `eps ≥ 0` is the extra delay observed by the second
`time.monotonic()` reading that becomes the new `last_request`. -/
def RateLimiter.wait (rl : RateLimiter) (now eps : ℚ) : RateLimiter :=
  let elapsed := now - rl.last_request
  if elapsed < rl.interval then
    { rl with last_request := now + (rl.interval - elapsed) + eps }
  else
    { rl with last_request := now + eps }

/-- The successive values of `last_request` over a serialized sequence of
`wait()` calls, each call described by its entry clock reading and its
nonnegative extra delay. -/
def grantTimes (rl : RateLimiter) : List (ℚ × ℚ) → List ℚ
  | [] => []
  | c :: rest =>
    let rl2 := rl.wait c.1 c.2
    rl2.last_request :: grantTimes rl2 rest

/-- Outcome of processing one file in `analyze_single`: the external call
succeeded and its response parsed as JSON, or the response failed to parse
(`json.JSONDecodeError`), or extraction/encoding/service raised
(`except Exception`). -/
inductive ApiOutcome where
  | success (result : ApiResult) (input_tokens output_tokens : ℕ)
  | parseFailure (msg : String)
  | failure (msg : String)
deriving DecidableEq, Repr

/-- The `ERROR` placeholder record built by `analyze_single`'s generic
`except Exception` handler. -/
def errorEntry (name msg : String) : ReviewEntry :=
  make_entry name
    { title := some "ERROR", author := some "Unknown", confidence := some 0,
      notes := some msg }

/-- The `PARSE_ERROR` placeholder record built by `analyze_single`'s
`json.JSONDecodeError` handler. -/
def parseErrorEntry (name msg : String) : ReviewEntry :=
  make_entry name
    { title := some "PARSE_ERROR", author := some "Unknown", confidence := some 0,
      notes := some ("Response parse error: " ++ msg) }

/-- Embedding of `analyze_single` (`api_client.py`), over the per-file
outcome: every path returns exactly one record (plus token counts). -/
def analyze_single (name : String) : ApiOutcome → ReviewEntry × ℕ × ℕ
  | .success r i o => (make_entry name r, i, o)
  | .parseFailure msg => (parseErrorEntry name msg, 0, 0)
  | .failure msg => (errorEntry name msg, 0, 0)

/-- The `files_to_process` filtering shared by `analyze_realtime` and
`analyze_batch`; Python `if already_done:` is false both for `None` and for an
empty set. -/
def filesToProcess (files : List String) (already_done : Option (List String)) :
    List String :=
  match already_done with
  | none => files
  | some done => if done = [] then files else files.filter (fun f => f ∉ done)

/-- Embedding of `analyze_realtime` (`api_client.py`): each submitted file is
processed by `analyze_single`; results are appended in completion order, which
is some permutation of the submitted files (the permutation is supplied as the
`completion` parameter). -/
def analyze_realtime (_files : List String) (oracle : String → ApiOutcome)
    (_already_done : Option (List String)) (completion : List String) :
    List ReviewEntry :=
  completion.map (fun f => (analyze_single f (oracle f)).1)

/-- Embedding of the request-preparation loop of `analyze_batch`
(`api_client.py`), returning the `custom_id`s of the prepared requests:
extraction/encoding failure prints an error and appends nothing. -/
def analyze_batch (files : List String) (extract_ok : String → Bool)
    (already_done : Option (List String)) : List String :=
  (filesToProcess files already_done).filter extract_ok

/-- Per-item result streamed back for a batch: the item succeeded and its text
parsed, or succeeded with unparsable text, or the service reported a
non-success result type. -/
inductive BatchItemResult where
  | succeeded (parsed : ApiResult)
  | unparsable (msg : String)
  | errored (result_type : String)
deriving DecidableEq, Repr

/-- The `PARSE_ERROR` placeholder built by `get_batch_results`. -/
def batchParseErrorEntry (name msg : String) : ReviewEntry :=
  make_entry name
    { title := some "PARSE_ERROR", author := some "Unknown", confidence := some 0,
      notes := some ("Parse error: " ++ msg) }

/-- The `API_ERROR` placeholder built by `get_batch_results`. -/
def apiErrorEntry (name result_type : String) : ReviewEntry :=
  make_entry name
    { title := some "API_ERROR", author := some "Unknown", confidence := some 0,
      notes := some ("Batch error: " ++ result_type) }

/-- Embedding of the result loop of `get_batch_results` (`api_client.py`) over
the streamed `(custom_id, result)` pairs of an ended batch. -/
def get_batch_results (results : List (String × BatchItemResult)) :
    List ReviewEntry :=
  results.map (fun r =>
    match r.2 with
    | .succeeded parsed => make_entry r.1 parsed
    | .unparsable msg => batchParseErrorEntry r.1 msg
    | .errored typ => apiErrorEntry r.1 typ)

/-! ## cli.py: the resume set -/

/-- The error sentinels of `get_already_done` (`cli.py`). -/
def sentinelTitles : List String := ["ERROR", "PARSE_ERROR"]

/-- Inner accumulation of `get_already_done`: add the original filename unless
the suggested title is an error sentinel. -/
def addDone (done : Finset String) (e : ReviewEntry) : Finset String :=
  if e.suggested_title ∉ sentinelTitles then insert e.original_filename done else done

/-- Embedding of `get_already_done` (`cli.py`) over the successfully parsed
prior review datasets (unreadable CSVs are skipped by the `except` clause and
so simply do not appear in the input). -/
def get_already_done (datasets : List (List ReviewEntry)) : Finset String :=
  datasets.foldl (fun done entries => entries.foldl addDone done) ∅

/-! ## Claim C7: the resume set -/

theorem mem_addDone_foldl (entries : List ReviewEntry) :
    ∀ (s : Finset String) (x : String),
      x ∈ entries.foldl addDone s ↔
        x ∈ s ∨ ∃ e ∈ entries, e.original_filename = x ∧
          e.suggested_title ∉ sentinelTitles := by
  induction entries with
  | nil => intro s x; simp
  | cons e tl ih =>
    intro s x
    simp only [List.foldl_cons, ih, List.mem_cons]
    unfold addDone
    split
    · simp only [Finset.mem_insert]
      constructor
      · rintro ((rfl | h) | ⟨e2, he2, hx, ht⟩)
        · exact Or.inr ⟨e, Or.inl rfl, rfl, by assumption⟩
        · exact Or.inl h
        · exact Or.inr ⟨e2, Or.inr he2, hx, ht⟩
      · rintro (h | ⟨e2, (rfl | he2), hx, ht⟩)
        · exact Or.inl (Or.inr h)
        · exact Or.inl (Or.inl hx.symm)
        · exact Or.inr ⟨e2, he2, hx, ht⟩
    · constructor
      · rintro (h | ⟨e2, he2, hx, ht⟩)
        · exact Or.inl h
        · exact Or.inr ⟨e2, Or.inr he2, hx, ht⟩
      · rintro (h | ⟨e2, (rfl | he2), hx, ht⟩)
        · exact Or.inl h
        · exact absurd ht (by assumption)
        · exact Or.inr ⟨e2, he2, hx, ht⟩

theorem mem_get_already_done (datasets : List (List ReviewEntry)) (x : String) :
    x ∈ get_already_done datasets ↔
      ∃ ds ∈ datasets, ∃ e ∈ ds, e.original_filename = x ∧
        e.suggested_title ∉ sentinelTitles := by
  have key : ∀ (l : List (List ReviewEntry)) (s : Finset String),
      x ∈ l.foldl (fun done entries => entries.foldl addDone done) s ↔
        x ∈ s ∨ ∃ ds ∈ l, ∃ e ∈ ds, e.original_filename = x ∧
          e.suggested_title ∉ sentinelTitles := by
    intro l
    induction l with
    | nil => intro s; simp
    | cons ds tl ih =>
      intro s
      simp only [List.foldl_cons, ih, mem_addDone_foldl, List.mem_cons]
      constructor
      · rintro ((h | ⟨e, he, hx, ht⟩) | ⟨ds2, hds2, hrest⟩)
        · exact Or.inl h
        · exact Or.inr ⟨ds, Or.inl rfl, e, he, hx, ht⟩
        · exact Or.inr ⟨ds2, Or.inr hds2, hrest⟩
      · rintro (h | ⟨ds2, (rfl | hds2), hrest⟩)
        · exact Or.inl (Or.inl h)
        · exact Or.inl (Or.inr hrest)
        · exact Or.inr ⟨ds2, hds2, hrest⟩
  rw [get_already_done, key]
  simp

/-- Claim C7: `already_done` contains a filename iff some readable prior
record for it has a title that is not an error sentinel; in particular a file
whose only record is titled `ERROR` is retried, and a file with a real title
is skipped. -/
theorem claim_C7_resume_set :
    (∀ (datasets : List (List ReviewEntry)) (x : String),
      x ∈ get_already_done datasets ↔
        ∃ ds ∈ datasets, ∃ e ∈ ds, e.original_filename = x ∧
          e.suggested_title ∉ sentinelTitles) ∧
    "x.pdf" ∉ get_already_done [[errorEntry "x.pdf" "boom"]] ∧
    "y.pdf" ∈ get_already_done
      [[make_entry "y.pdf" { title := some "Some Real Title", author := some "A",
                             confidence := some 1 }]] := by
  refine ⟨mem_get_already_done, ?_, ?_⟩ <;> decide

/-! ## Claim C10: error placeholders are never selected for renaming -/

theorem errorEntry_fields (name msg : String) :
    (errorEntry name msg).confidence = 0 ∧ (errorEntry name msg).approve = "review" := by
  constructor
  · rfl
  · show (if (0 : ℚ) ≥ CONFIDENCE_THRESHOLD then "yes" else "review") = "review"
    norm_num [CONFIDENCE_THRESHOLD]

theorem rename_files_ignores_unapproved (pdf_dir : List String)
    (xs ys : List ReviewEntry) (dry_run has_output_dir : Bool) (p : ReviewEntry)
    (hp : p.approve ≠ "yes") :
    rename_files pdf_dir (xs ++ p :: ys) dry_run has_output_dir =
      rename_files pdf_dir (xs ++ ys) dry_run has_output_dir := by
  have hfilter : (xs ++ p :: ys).filter (fun e => e.approve == "yes") =
      (xs ++ ys).filter (fun e => e.approve == "yes") := by
    rw [List.filter_append, List.filter_append, List.filter_cons]
    have : (p.approve == "yes") = false := by
      simpa using hp
    rw [this]
    simp
  unfold rename_files
  rw [hfilter]

/-- Claim C10: the ERROR, PARSE_ERROR and API_ERROR placeholder records are
created with confidence 0 and approval `"review"`, and `rename_files` only
acts on records whose approval equals `"yes"`, so an unedited placeholder is
never selected for renaming. -/
theorem claim_C10_placeholders_never_renamed :
    (∀ name msg : String,
      (errorEntry name msg).confidence = 0 ∧ (errorEntry name msg).approve = "review") ∧
    (∀ name msg : String,
      (parseErrorEntry name msg).confidence = 0 ∧
        (parseErrorEntry name msg).approve = "review") ∧
    (∀ name msg : String,
      (batchParseErrorEntry name msg).confidence = 0 ∧
        (batchParseErrorEntry name msg).approve = "review") ∧
    (∀ name typ : String,
      (apiErrorEntry name typ).confidence = 0 ∧
        (apiErrorEntry name typ).approve = "review") ∧
    (∀ (pdf_dir : List String) (xs ys : List ReviewEntry)
        (dry_run has_output_dir : Bool) (p : ReviewEntry), p.approve ≠ "yes" →
      rename_files pdf_dir (xs ++ p :: ys) dry_run has_output_dir =
        rename_files pdf_dir (xs ++ ys) dry_run has_output_dir) := by
  refine ⟨errorEntry_fields, ?_, ?_, ?_, rename_files_ignores_unapproved⟩ <;>
    · intro name msg
      constructor
      · rfl
      · show (if (0 : ℚ) ≥ CONFIDENCE_THRESHOLD then "yes" else "review") = "review"
        norm_num [CONFIDENCE_THRESHOLD]

/-- Witness for C10: an `ERROR` placeholder has approval `"review"` and its
presence does not change the outcome of `rename_files` at a concrete input. -/
theorem claim_C10_witness :
    (errorEntry "a.pdf" "boom").approve ≠ "yes" ∧
    rename_files ["a.pdf"] ([] ++ errorEntry "a.pdf" "boom" :: []) false true =
      rename_files ["a.pdf"] ([] ++ []) false true :=
  ⟨by decide,
   claim_C10_placeholders_never_renamed.2.2.2.2 ["a.pdf"] [] [] false true
     (errorEntry "a.pdf" "boom") (by decide)⟩

/-! ## Claim C4: skip conditions during rename execution -/

/-- Counterexample to claim C4: an approved record whose source file is
missing is skipped, and the returned rename log is empty — the skipped record
is NOT recorded as a log entry (the code `continue`s before building the log
entry dict). -/
theorem claim_C4_counterexample :
    (rename_files ["b.pdf"]
        [{ original_filename := "a.pdf", suggested_title := "T",
           suggested_author := "A", new_filename := "c.pdf",
           confidence := 1, approve := "yes" }] false true).1 =
      { dir := ["b.pdf"], log := [], renamed := 0, skipped := 1, errors := 0 } := by
  decide

/-- Claim C4 (amended): a resolved record whose source file no longer exists,
or whose source name already equals the target name, is skipped without
executing a rename and without producing any log entry; only the skipped
counter increments. -/
theorem claim_C4_skip_behaviour (dry_run : Bool) (st : RenameState)
    (e : ReviewEntry)
    (h : e.original_filename ∉ st.dir ∨ e.original_filename = e.new_filename) :
    renameStep dry_run st e = { st with skipped := st.skipped + 1 } := by
  unfold renameStep
  rcases h with h | h
  · rw [if_pos h]
  · by_cases h0 : e.original_filename ∉ st.dir
    · rw [if_pos h0]
    · rw [if_neg h0, if_pos h]

/-- Witness for C4's amended claim at a concrete input. -/
theorem claim_C4_skip_behaviour_witness :
    renameStep false ⟨["b.pdf"], [], 0, 0, 0⟩
        { original_filename := "a.pdf", suggested_title := "T",
          suggested_author := "A", new_filename := "c.pdf",
          confidence := 1, approve := "yes" } =
      { dir := ["b.pdf"], log := [], renamed := 0, skipped := 1, errors := 0 } :=
  claim_C4_skip_behaviour false ⟨["b.pdf"], [], 0, 0, 0⟩ _ (Or.inl (by decide))

/-! ## Claim C8: dry-run is effect-free -/

theorem renameStep_dry_dir (st : RenameState) (e : ReviewEntry) :
    (renameStep true st e).dir = st.dir := by
  unfold renameStep
  split
  · rfl
  · split
    · rfl
    · rfl

theorem renameStep_dry_log (st : RenameState) (e : ReviewEntry) :
    (renameStep true st e).log = st.log ∨
      (renameStep true st e).log =
        st.log ++ [⟨e.original_filename, e.new_filename, "dry_run"⟩] := by
  unfold renameStep
  split
  · exact Or.inl rfl
  · split
    · exact Or.inl rfl
    · exact Or.inr rfl

theorem dry_fold (es : List ReviewEntry) :
    ∀ st : RenameState,
      (es.foldl (renameStep true) st).dir = st.dir ∧
      (∀ le ∈ (es.foldl (renameStep true) st).log,
        le ∈ st.log ∨ le.status = "dry_run") := by
  induction es with
  | nil => intro st; exact ⟨rfl, fun le hle => Or.inl hle⟩
  | cons e tl ih =>
    intro st
    simp only [List.foldl_cons]
    refine ⟨by rw [(ih (renameStep true st e)).1, renameStep_dry_dir], ?_⟩
    intro le hle
    rcases (ih (renameStep true st e)).2 le hle with hin | hdry
    · rcases renameStep_dry_log st e with hl | hl
      · exact Or.inl (hl ▸ hin)
      · rw [hl] at hin
        rcases List.mem_append.mp hin with h2 | h2
        · exact Or.inl h2
        · simp only [List.mem_singleton] at h2
          subst h2
          exact Or.inr rfl
    · exact Or.inr hdry

/-- Claim C8: executing the rename plan with dry-run performs zero filesystem
mutations, every produced log entry has status `dry_run`, and no rename log is
persisted. -/
theorem claim_C8_dry_run (pdf_dir : List String) (entries : List ReviewEntry)
    (has_output_dir : Bool) :
    (rename_files pdf_dir entries true has_output_dir).1.dir = pdf_dir ∧
    (∀ le ∈ (rename_files pdf_dir entries true has_output_dir).1.log,
      le.status = "dry_run") ∧
    (rename_files pdf_dir entries true has_output_dir).2 = none := by
  have h := dry_fold
    (resolve_conflicts pdf_dir (entries.filter (fun e => e.approve == "yes")))
    ⟨pdf_dir, [], 0, 0, 0⟩
  refine ⟨h.1, ?_, ?_⟩
  · intro le hle
    rcases h.2 le hle with hin | hdry
    · simp at hin
    · exact hdry
  · show (if _ ∧ true = false ∧ _ then _ else none) = none
    simp

/-- Witness for C8 at a concrete input. -/
theorem claim_C8_dry_run_witness :
    (rename_files ["A.pdf"]
        [{ original_filename := "A.pdf", suggested_title := "T",
           suggested_author := "A", new_filename := "b.pdf",
           confidence := 1, approve := "yes" }] true true).1.dir = ["A.pdf"] ∧
    (⟨"A.pdf", "b.pdf", "dry_run"⟩ : LogEntry).status = "dry_run" ∧
    (rename_files ["A.pdf"]
        [{ original_filename := "A.pdf", suggested_title := "T",
           suggested_author := "A", new_filename := "b.pdf",
           confidence := 1, approve := "yes" }] true true).2 = none := by
  have h := claim_C8_dry_run ["A.pdf"]
    [{ original_filename := "A.pdf", suggested_title := "T",
       suggested_author := "A", new_filename := "b.pdf",
       confidence := 1, approve := "yes" }] true
  exact ⟨h.1, h.2.1 ⟨"A.pdf", "b.pdf", "dry_run"⟩ (by decide), h.2.2⟩

/-! ## Claim C2: rename then undo round trip -/

theorem fsRename_eq_some {d : List String} {src dst : String}
    (h1 : src ∈ d) :
    fsRename d src dst = some (dst :: (d.erase src).erase dst) := by
  unfold fsRename
  rw [if_pos h1]

theorem fsRename_fresh {d : List String} {src dst : String}
    (h1 : src ∈ d) (h2 : dst ∉ d) :
    fsRename d src dst = some (dst :: d.erase src) := by
  rw [fsRename_eq_some h1,
    List.erase_of_not_mem (fun hm => h2 (List.mem_of_mem_erase hm))]

theorem fsRename_eq_none {d : List String} {src dst : String}
    (h : src ∉ d) : fsRename d src dst = none := by
  unfold fsRename
  rw [if_neg h]

theorem renameStep_skip_eq (dry_run : Bool) (st : RenameState) (e : ReviewEntry)
    (h : e.original_filename ∉ st.dir ∨ e.original_filename = e.new_filename) :
    renameStep dry_run st e = { st with skipped := st.skipped + 1 } := by
  unfold renameStep
  rcases h with h | h
  · rw [if_pos h]
  · by_cases h0 : e.original_filename ∉ st.dir
    · rw [if_pos h0]
    · rw [if_neg h0, if_pos h]

theorem renameStep_renamed_eq (st : RenameState) (e : ReviewEntry)
    (h1 : e.original_filename ∈ st.dir)
    (h2 : e.original_filename ≠ e.new_filename) :
    renameStep false st e =
      { st with
        dir := e.new_filename ::
          (st.dir.erase e.original_filename).erase e.new_filename,
        log := st.log ++ [⟨e.original_filename, e.new_filename, "renamed"⟩],
        renamed := st.renamed + 1 } := by
  unfold renameStep
  rw [if_neg (not_not_intro h1), if_neg h2, if_neg (by simp), fsRename_eq_some h1]

theorem renameStep_fresh_eq (st : RenameState) (e : ReviewEntry)
    (h1 : e.original_filename ∈ st.dir)
    (h2 : e.original_filename ≠ e.new_filename)
    (h3 : e.new_filename ∉ st.dir) :
    renameStep false st e =
      { st with dir := e.new_filename :: st.dir.erase e.original_filename,
                log := st.log ++ [⟨e.original_filename, e.new_filename, "renamed"⟩],
                renamed := st.renamed + 1 } := by
  rw [renameStep_renamed_eq st e h1 h2,
    List.erase_of_not_mem (fun hm => h3 (List.mem_of_mem_erase hm))]

theorem undoStep_not_renamed {st : UndoState} {e : LogEntry}
    (h : e.status ≠ "renamed") : undoStep st e = st := by
  unfold undoStep
  rw [if_pos h]

theorem undoStep_not_found {st : UndoState} {e : LogEntry}
    (h1 : e.status = "renamed") (h2 : e.new ∉ st.dir) : undoStep st e = st := by
  unfold undoStep
  rw [if_neg (not_not_intro h1), if_pos h2]

theorem undoStep_apply {st : UndoState} {e : LogEntry}
    (h1 : e.status = "renamed") (h2 : e.new ∈ st.dir) :
    undoStep st e =
      { st with dir := e.original :: (st.dir.erase e.new).erase e.original,
                reversed := st.reversed + 1 } := by
  unfold undoStep
  rw [if_neg (not_not_intro h1), if_neg (not_not_intro h2), fsRename_eq_some h2]

theorem undoStep_fresh {st : UndoState} {e : LogEntry}
    (h1 : e.status = "renamed") (h2 : e.new ∈ st.dir) (h3 : e.original ∉ st.dir) :
    undoStep st e =
      { st with dir := e.original :: st.dir.erase e.new,
                reversed := st.reversed + 1 } := by
  rw [undoStep_apply h1 h2,
    List.erase_of_not_mem (fun hm => h3 (List.mem_of_mem_erase hm))]

/-- Undoing a log from permuted directories yields permuted directories. -/
theorem undoFold_perm : ∀ (l : List LogEntry) (s t : UndoState),
    s.dir.Perm t.dir →
    ((l.foldl undoStep s).dir).Perm ((l.foldl undoStep t).dir) := by
  intro l
  induction l with
  | nil => exact fun s t h => h
  | cons e tl ih =>
    intro s t h
    simp only [List.foldl_cons]
    apply ih
    by_cases h1 : e.status ≠ "renamed"
    · rw [undoStep_not_renamed h1, undoStep_not_renamed h1]
      exact h
    · push_neg at h1
      by_cases h2 : e.new ∈ s.dir
      · have h2t : e.new ∈ t.dir := h.mem_iff.mp h2
        rw [undoStep_apply h1 h2, undoStep_apply h1 h2t]
        exact ((h.erase e.new).erase e.original).cons e.original
      · have h2t : e.new ∉ t.dir := fun hh => h2 (h.mem_iff.mpr hh)
        rw [undoStep_not_found h1 h2, undoStep_not_found h1 h2t]
        exact h

/-- The `rename_files` execution loop started from an empty log and zero
counters (as `rename_files` itself starts it). -/
def execFold (d : List String) (es : List ReviewEntry) : RenameState :=
  es.foldl (renameStep false) ⟨d, [], 0, 0, 0⟩

/-- Holds of an execution run when every rename that actually executes has a
destination name absent from the directory at that moment.  Because POSIX
`rename` silently replaces an existing destination, a run violating this
destroys a file, and undo cannot restore the original directory. -/
def noClobberRun (d : List String) : List ReviewEntry → Bool
  | [] => true
  | e :: es =>
    (if e.original_filename ∈ d ∧ e.original_filename ≠ e.new_filename
     then decide (e.new_filename ∉ d) else true) &&
    noClobberRun (renameStep false ⟨d, [], 0, 0, 0⟩ e).dir es

theorem renameStep_compat (st : RenameState) (e : ReviewEntry) :
    (renameStep false st e).dir =
      (renameStep false ⟨st.dir, [], 0, 0, 0⟩ e).dir ∧
    (renameStep false st e).log =
      st.log ++ (renameStep false ⟨st.dir, [], 0, 0, 0⟩ e).log := by
  by_cases h1 : e.original_filename ∉ st.dir ∨ e.original_filename = e.new_filename
  · rw [renameStep_skip_eq false st e h1, renameStep_skip_eq false ⟨st.dir, [], 0, 0, 0⟩ e h1]
    exact ⟨rfl, by simp⟩
  · push_neg at h1
    rw [renameStep_renamed_eq st e h1.1 h1.2,
      renameStep_renamed_eq ⟨st.dir, [], 0, 0, 0⟩ e h1.1 h1.2]
    exact ⟨rfl, by simp⟩

theorem execFold_shift : ∀ (es : List ReviewEntry) (st : RenameState),
    (es.foldl (renameStep false) st).dir =
      (es.foldl (renameStep false) (⟨st.dir, [], 0, 0, 0⟩ : RenameState)).dir ∧
    (es.foldl (renameStep false) st).log =
      st.log ++ (es.foldl (renameStep false) (⟨st.dir, [], 0, 0, 0⟩ : RenameState)).log := by
  intro es
  induction es with
  | nil => intro st; exact ⟨rfl, by simp⟩
  | cons e tl ih =>
    intro st
    have hcompat := renameStep_compat st e
    have hL := ih (renameStep false st e)
    have hR := ih (renameStep false ⟨st.dir, [], 0, 0, 0⟩ e)
    simp only [List.foldl_cons]
    constructor
    · rw [hL.1, hR.1, hcompat.1]
    · rw [hL.2, hR.2, hcompat.2, hcompat.1, List.append_assoc]

theorem execFold_cons_dir_log (d : List String) (e : ReviewEntry)
    (tl : List ReviewEntry) :
    (execFold d (e :: tl)).dir =
      (execFold (renameStep false ⟨d, [], 0, 0, 0⟩ e).dir tl).dir ∧
    (execFold d (e :: tl)).log =
      (renameStep false ⟨d, [], 0, 0, 0⟩ e).log ++
        (execFold (renameStep false ⟨d, [], 0, 0, 0⟩ e).dir tl).log := by
  have h := execFold_shift tl (renameStep false ⟨d, [], 0, 0, 0⟩ e)
  exact ⟨h.1, h.2⟩

theorem exec_undo_restores : ∀ (es : List ReviewEntry) (d : List String),
    d.Nodup → noClobberRun d es = true →
    (execFold d es).dir.Nodup ∧
    ∀ s : UndoState, s.dir.Perm (execFold d es).dir →
      (((execFold d es).log.reverse.foldl undoStep s).dir).Perm d := by
  intro es
  induction es with
  | nil =>
    intro d hd _
    refine ⟨hd, ?_⟩
    intro s hs
    simpa [execFold] using hs
  | cons e tl ih =>
    intro d hd hnc
    simp only [noClobberRun, Bool.and_eq_true] at hnc
    obtain ⟨hok, hnctl⟩ := hnc
    have hcons := execFold_cons_dir_log d e tl
    by_cases h1 : e.original_filename ∉ d ∨ e.original_filename = e.new_filename
    · -- skipped: state unchanged, no log entry
      have hstep : renameStep false ⟨d, [], 0, 0, 0⟩ e =
          (⟨d, [], 0, 1, 0⟩ : RenameState) := renameStep_skip_eq false _ e h1
      rw [hstep] at hcons
      rw [hstep] at hnctl
      have htl := ih d hd hnctl
      refine ⟨by rw [hcons.1]; exact htl.1, ?_⟩
      intro s hs
      rw [hcons.1] at hs
      rw [hcons.2]
      simp only [List.nil_append]
      exact htl.2 s hs
    · push_neg at h1
      -- the run has no overwrites, so the destination is fresh here
      have h3 : e.new_filename ∉ d := by
        rw [if_pos ⟨h1.1, h1.2⟩] at hok
        exact of_decide_eq_true hok
      -- renamed: the file moves, renamed log entry
      have horig_ne : e.original_filename ∉ d.erase e.original_filename := by
        intro hmem
        exact absurd ((List.Nodup.mem_erase_iff hd).mp hmem).1 (by simp)
      have hd1 : (e.new_filename :: d.erase e.original_filename).Nodup := by
        refine List.nodup_cons.mpr ⟨?_, hd.erase _⟩
        intro hmem
        exact h3 (List.mem_of_mem_erase hmem)
      have hstep : renameStep false ⟨d, [], 0, 0, 0⟩ e =
          (⟨e.new_filename :: d.erase e.original_filename,
            [⟨e.original_filename, e.new_filename, "renamed"⟩], 1, 0, 0⟩ :
              RenameState) :=
        renameStep_fresh_eq _ e h1.1 h1.2 h3
      rw [hstep] at hcons
      rw [hstep] at hnctl
      have htl := ih (e.new_filename :: d.erase e.original_filename) hd1 hnctl
      refine ⟨by rw [hcons.1]; exact htl.1, ?_⟩
      intro s hs
      rw [hcons.1] at hs
      rw [hcons.2, List.reverse_append, List.reverse_singleton, List.foldl_append,
        List.foldl_cons, List.foldl_nil]
      have hmid := htl.2 s hs
      have hnew : (⟨e.original_filename, e.new_filename, "renamed"⟩ : LogEntry).new ∈
          ((execFold (e.new_filename :: d.erase e.original_filename) tl).log.reverse.foldl
            undoStep s).dir :=
        hmid.mem_iff.mpr (List.mem_cons_self _ _)
      have horig : (⟨e.original_filename, e.new_filename, "renamed"⟩ : LogEntry).original ∉
          ((execFold (e.new_filename :: d.erase e.original_filename) tl).log.reverse.foldl
            undoStep s).dir := by
        intro hh
        rcases List.mem_cons.mp (hmid.mem_iff.mp hh) with heq | hmem
        · exact h1.2 heq
        · exact horig_ne hmem
      rw [undoStep_fresh rfl hnew horig]
      refine List.Perm.trans ((hmid.erase _).cons _) ?_
      rw [List.erase_cons_head]
      exact (List.perm_cons_erase h1.1).symm

theorem undo_noop (l : List LogEntry) :
    ∀ s : UndoState, (∀ le ∈ l, le.status = "renamed" → le.new ∉ s.dir) →
      l.foldl undoStep s = s := by
  induction l with
  | nil => intro s _; rfl
  | cons e tl ih =>
    intro s h
    have hstep : undoStep s e = s := by
      by_cases h1 : e.status = "renamed"
      · exact undoStep_not_found h1 (h e (List.mem_cons_self _ _) h1)
      · exact undoStep_not_renamed h1
    rw [List.foldl_cons, hstep]
    exact ih s (fun le hle => h le (List.mem_cons_of_mem _ hle))

/-- Claim C2 (amended): executing the resolved rename plan (non-dry-run) and
then applying undo to the produced log — processing entries in reverse order
and acting only on status `renamed` — restores the directory to exactly its
original set of file names, PROVIDED no executed rename's destination name is
present in the directory at the moment of the rename (POSIX `rename` silently
replaces an existing destination, so a clobbering run destroys a file and
cannot be undone: see `claim_C2_counterexample`); and a second undo on the
same log performs zero renames and zero errors (every actionable entry is
skipped) PROVIDED additionally no renamed entry's post-rename filename is
present in the restored directory (also forced by
`claim_C2_counterexample`, where a case-swap chain makes a second undo
re-execute two renames). -/
theorem claim_C2_rename_undo_round_trip (pdf_dir : List String)
    (entries : List ReviewEntry) (has_output_dir : Bool)
    (hnodup : pdf_dir.Nodup)
    (hnc : noClobberRun pdf_dir
      (resolve_conflicts pdf_dir
        (entries.filter (fun e => e.approve == "yes"))) = true) :
    ((apply_undo (rename_files pdf_dir entries false has_output_dir).1.log
        (rename_files pdf_dir entries false has_output_dir).1.dir).dir).Perm pdf_dir ∧
    ((∀ le ∈ (rename_files pdf_dir entries false has_output_dir).1.log,
        le.status = "renamed" →
        le.new ∉ (apply_undo (rename_files pdf_dir entries false has_output_dir).1.log
          (rename_files pdf_dir entries false has_output_dir).1.dir).dir) →
      apply_undo (rename_files pdf_dir entries false has_output_dir).1.log
          (apply_undo (rename_files pdf_dir entries false has_output_dir).1.log
            (rename_files pdf_dir entries false has_output_dir).1.dir).dir =
        ⟨(apply_undo (rename_files pdf_dir entries false has_output_dir).1.log
            (rename_files pdf_dir entries false has_output_dir).1.dir).dir, 0, 0⟩) := by
  have hmain := exec_undo_restores
    (resolve_conflicts pdf_dir (entries.filter (fun e => e.approve == "yes")))
    pdf_dir hnodup hnc
  constructor
  · exact hmain.2 ⟨(rename_files pdf_dir entries false has_output_dir).1.dir, 0, 0⟩
      (List.Perm.refl _)
  · intro h
    exact undo_noop _ _ (fun le hle hst => h le (List.mem_reverse.mp hle) hst)

/-- Witness for C2 at a concrete input: renaming `x.pdf` to `y.pdf` and
undoing restores the directory, and a second undo is a complete no-op. -/
theorem claim_C2_rename_undo_round_trip_witness :
    ((apply_undo (rename_files ["x.pdf"]
        [⟨"x.pdf", "T", "A", "y.pdf", 1, "yes", "", "", ""⟩] false true).1.log
        (rename_files ["x.pdf"]
          [⟨"x.pdf", "T", "A", "y.pdf", 1, "yes", "", "", ""⟩] false true).1.dir).dir).Perm
      ["x.pdf"] ∧
    apply_undo (rename_files ["x.pdf"]
        [⟨"x.pdf", "T", "A", "y.pdf", 1, "yes", "", "", ""⟩] false true).1.log
        (apply_undo (rename_files ["x.pdf"]
          [⟨"x.pdf", "T", "A", "y.pdf", 1, "yes", "", "", ""⟩] false true).1.log
          (rename_files ["x.pdf"]
            [⟨"x.pdf", "T", "A", "y.pdf", 1, "yes", "", "", ""⟩] false true).1.dir).dir =
      ⟨(apply_undo (rename_files ["x.pdf"]
          [⟨"x.pdf", "T", "A", "y.pdf", 1, "yes", "", "", ""⟩] false true).1.log
          (rename_files ["x.pdf"]
            [⟨"x.pdf", "T", "A", "y.pdf", 1, "yes", "", "", ""⟩] false true).1.dir).dir,
        0, 0⟩ := by
  have h := claim_C2_rename_undo_round_trip ["x.pdf"]
    [⟨"x.pdf", "T", "A", "y.pdf", 1, "yes", "", "", ""⟩] true (by decide) (by decide)
  exact ⟨h.1, h.2 (by decide)⟩

/-- Counterexample to claim C2 as stated, in two parts.  Overwrite: with
directory `["x.pdf", "X.pdf"]` and the single approved record
`x.pdf → X.pdf` (accepted unchanged by the resolver's same-file branch,
since the names agree after lowercasing), the POSIX rename silently replaces
`X.pdf`, destroying it; undo then leaves `["x.pdf"]`, which is not a
permutation of the original directory.  Re-execution: with directory
`["A.pdf"]` and two approved records `A.pdf → a.pdf` and `a.pdf → A.pdf` (a
case-swap chain), the first undo restores the directory, but a second undo
on the same log performs 2 renames, not zero — the actionable entries'
post-rename filenames are present again, so they are re-executed rather than
skipped. -/
theorem claim_C2_counterexample :
    ¬ ((apply_undo (rename_files ["x.pdf", "X.pdf"]
        [⟨"x.pdf", "T", "W", "X.pdf", 1, "yes", "", "", ""⟩] false true).1.log
        (rename_files ["x.pdf", "X.pdf"]
          [⟨"x.pdf", "T", "W", "X.pdf", 1, "yes", "", "", ""⟩]
          false true).1.dir).dir).Perm ["x.pdf", "X.pdf"] ∧
    (apply_undo (rename_files ["A.pdf"]
        [⟨"A.pdf", "T", "W", "a.pdf", 1, "yes", "", "", ""⟩,
         ⟨"a.pdf", "T", "W", "A.pdf", 1, "yes", "", "", ""⟩] false true).1.log
        (rename_files ["A.pdf"]
          [⟨"A.pdf", "T", "W", "a.pdf", 1, "yes", "", "", ""⟩,
           ⟨"a.pdf", "T", "W", "A.pdf", 1, "yes", "", "", ""⟩] false true).1.dir).dir =
      ["A.pdf"] ∧
    (apply_undo (rename_files ["A.pdf"]
        [⟨"A.pdf", "T", "W", "a.pdf", 1, "yes", "", "", ""⟩,
         ⟨"a.pdf", "T", "W", "A.pdf", 1, "yes", "", "", ""⟩] false true).1.log
        (apply_undo (rename_files ["A.pdf"]
          [⟨"A.pdf", "T", "W", "a.pdf", 1, "yes", "", "", ""⟩,
           ⟨"a.pdf", "T", "W", "A.pdf", 1, "yes", "", "", ""⟩] false true).1.log
          (rename_files ["A.pdf"]
            [⟨"A.pdf", "T", "W", "a.pdf", 1, "yes", "", "", ""⟩,
             ⟨"a.pdf", "T", "W", "A.pdf", 1, "yes", "", "", ""⟩] false true).1.dir).dir).reversed
      = 2 := by
  refine ⟨by decide, by decide, by decide⟩

/-! ## Claim C9: the rate limiter -/

theorem RateLimiter.wait_interval (rl : RateLimiter) (now eps : ℚ) :
    (rl.wait now eps).interval = rl.interval := by
  simp only [RateLimiter.wait]
  split
  · rfl
  · rfl

theorem RateLimiter.wait_advances (rl : RateLimiter) (now eps : ℚ)
    (heps : 0 ≤ eps) :
    rl.last_request + rl.interval ≤ (rl.wait now eps).last_request := by
  simp only [RateLimiter.wait]
  split
  · simp only
    linarith
  · rename_i h
    simp only
    push_neg at h
    linarith

theorem grantTimes_chain_aux : ∀ (calls : List (ℚ × ℚ)) (rl : RateLimiter),
    (∀ c ∈ calls, 0 ≤ c.2) →
    List.Chain' (fun a b => a + rl.interval ≤ b)
      (rl.last_request :: grantTimes rl calls) := by
  intro calls
  induction calls with
  | nil => intro rl _; simp [grantTimes]
  | cons c rest ih =>
    intro rl h
    rw [show grantTimes rl (c :: rest) =
      (rl.wait c.1 c.2).last_request :: grantTimes (rl.wait c.1 c.2) rest from rfl]
    have hstep := rl.wait_advances c.1 c.2 (h c (List.mem_cons_self _ _))
    have htail := ih (rl.wait c.1 c.2) (fun x hx => h x (List.mem_cons_of_mem _ hx))
    rw [RateLimiter.wait_interval] at htail
    exact List.chain'_cons.mpr ⟨hstep, htail⟩

/-- Claim C9: over any serialized sequence of `wait()` calls (the lock
serializes them; each call is described by its monotonic-clock reading and a
nonnegative sleep overshoot), successive grants are separated by at least
`60 / max_per_minute` seconds, and the shared last-granted timestamp strictly
advances at each grant. -/
theorem claim_C9_rate_limiter (n : ℕ) (calls : List (ℚ × ℚ)) (hn : 0 < n)
    (heps : ∀ c ∈ calls, 0 ≤ c.2) :
    (RateLimiter.init n).interval = 60 / (n : ℚ) ∧
    List.Chain' (fun a b => a + 60 / (n : ℚ) ≤ b)
      (grantTimes (RateLimiter.init n) calls) ∧
    List.Chain' (fun a b => a < b) (grantTimes (RateLimiter.init n) calls) := by
  have hpos : 0 < 60 / (n : ℚ) := by
    apply div_pos
    · norm_num
    · exact_mod_cast hn
  have hchain : List.Chain' (fun a b => a + 60 / (n : ℚ) ≤ b)
      (grantTimes (RateLimiter.init n) calls) := by
    have h := grantTimes_chain_aux calls (RateLimiter.init n) heps
    exact (List.chain'_cons'.mp h).2
  refine ⟨rfl, hchain, ?_⟩
  exact hchain.imp (fun a b hab => by linarith)

/-- Witness for C9: two calls at concrete clock readings with the default
limit of 50 per minute. -/
theorem claim_C9_rate_limiter_witness :
    (RateLimiter.init 50).interval = 60 / (50 : ℚ) ∧
    List.Chain' (fun a b => a + 60 / (50 : ℚ) ≤ b)
      (grantTimes (RateLimiter.init 50) [(0, 0), (1, 0)]) ∧
    List.Chain' (fun a b => a < b)
      (grantTimes (RateLimiter.init 50) [(0, 0), (1, 0)]) := by
  have h := claim_C9_rate_limiter 50 [(0, 0), (1, 0)] (by decide)
    (by intro c hc; fin_cases hc <;> norm_num)
  exact_mod_cast h

/-! ## Claim C3: every file yields exactly one record -/

theorem analyze_single_filename (name : String) (o : ApiOutcome) :
    ((analyze_single name o).1).original_filename = name := by
  cases o <;> rfl

theorem get_batch_results_filenames (results : List (String × BatchItemResult)) :
    (get_batch_results results).map (fun e => e.original_filename) =
      results.map (fun r => r.1) := by
  unfold get_batch_results
  rw [List.map_map]
  apply List.map_congr_left
  intro r _
  simp only [Function.comp]
  cases hr : r.2 <;> rfl

/-- Claim C3 (amended): in concurrent mode every submitted file yields exactly
one record — failures included — so the multiset of original filenames of the
aggregated result equals the multiset of submitted files (collection follows
the non-deterministic completion order); in batch mode, every retrieved item
yields exactly one record (API errors and parse failures become placeholder
records), but a file whose page extraction or encoding fails during batch
preparation is dropped from the submission and yields no record
(`claim_C3_counterexample`). -/
theorem claim_C3_one_record_per_file :
    (∀ (files : List String) (oracle : String → ApiOutcome)
        (already_done : Option (List String)) (completion : List String),
      completion.Perm (filesToProcess files already_done) →
      ((analyze_realtime files oracle already_done completion).map
        (fun e => e.original_filename)).Perm (filesToProcess files already_done)) ∧
    (∀ results : List (String × BatchItemResult),
      (get_batch_results results).map (fun e => e.original_filename) =
        results.map (fun r => r.1)) ∧
    (∀ (files : List String) (extract_ok : String → Bool)
        (already_done : Option (List String)),
      analyze_batch files extract_ok already_done =
        (filesToProcess files already_done).filter extract_ok) := by
  refine ⟨?_, get_batch_results_filenames, fun _ _ _ => rfl⟩
  intro files oracle already_done completion hperm
  unfold analyze_realtime
  rw [List.map_map]
  have : ((fun e : ReviewEntry => e.original_filename) ∘
      (fun f => (analyze_single f (oracle f)).1)) = fun f => f := by
    funext f
    exact analyze_single_filename f (oracle f)
  rw [this, List.map_id']
  exact hperm

/-- Counterexample to claim C3 as stated: in batch mode, a file whose page
extraction fails is not added to the batch requests and therefore yields no
record at all across the whole batch pipeline — not an ERROR placeholder. -/
theorem claim_C3_counterexample :
    analyze_batch ["x.pdf"] (fun _ => false) none = [] ∧
    ((get_batch_results ((analyze_batch ["x.pdf"] (fun _ => false) none).map
        (fun name => (name, BatchItemResult.errored "errored")))).filter
      (fun e => e.original_filename == "x.pdf")).length = 0 := by
  constructor
  · rfl
  · rfl

/-- Witness for C3 at a concrete input: two files, one of which fails, each
yield exactly one record even when collected out of order. -/
theorem claim_C3_one_record_per_file_witness :
    ((analyze_realtime ["a.pdf", "b.pdf"]
        (fun f => if f == "a.pdf" then ApiOutcome.failure "boom"
                  else ApiOutcome.parseFailure "bad json")
        none ["b.pdf", "a.pdf"]).map
      (fun e => e.original_filename)).Perm
      (filesToProcess ["a.pdf", "b.pdf"] none) :=
  claim_C3_one_record_per_file.1 ["a.pdf", "b.pdf"]
    (fun f => if f == "a.pdf" then ApiOutcome.failure "boom"
              else ApiOutcome.parseFailure "bad json")
    none ["b.pdf", "a.pdf"] (by decide)

/-! ## Claim C1: decimal-counter arithmetic for the conflict resolver -/

theorem natReprAux_fuel_irrelevant :
    ∀ (fuel : ℕ) (n fuel' : ℕ), n < fuel → n < fuel' →
      natReprAux fuel n = natReprAux fuel' n := by
  intro fuel
  induction fuel with
  | zero => intro n fuel' h; omega
  | succ f ih =>
    intro n fuel' h h'
    cases fuel' with
    | zero => omega
    | succ f' =>
      show (if n < 10 then _ else _) = (if n < 10 then _ else _)
      by_cases h10 : n < 10
      · rw [if_pos h10, if_pos h10]
      · rw [if_neg h10, if_neg h10]
        have hdiv : n / 10 < n := Nat.div_lt_self (by omega) (by omega)
        rw [ih (n / 10) f' (by omega) (by omega)]

theorem natRepr_lt10 (n : ℕ) (h : n < 10) : natRepr n = [Nat.digitChar n] := by
  show (if n < 10 then _ else _) = _
  rw [if_pos h]

theorem natRepr_ge10 (n : ℕ) (h : ¬ n < 10) :
    natRepr n = natRepr (n / 10) ++ [Nat.digitChar (n % 10)] := by
  show (if n < 10 then _ else _) = _
  rw [if_neg h]
  have hdiv : n / 10 < n := Nat.div_lt_self (by omega) (by omega)
  rw [natReprAux_fuel_irrelevant n (n / 10) (n / 10 + 1) (by omega) (by omega)]
  rfl

theorem digitChar_toNat (d : ℕ) (h : d < 10) : (Nat.digitChar d).toNat = 48 + d := by
  interval_cases d <;> rfl

theorem digitChar_toLower (d : ℕ) (h : d < 10) :
    Char.toLower (Nat.digitChar d) = Nat.digitChar d := by
  interval_cases d <;> decide

/-- Value of a decimal digit string (used to invert `natRepr`). -/
def digitsVal (cs : List Char) : ℕ :=
  cs.foldl (fun a c => 10 * a + (c.toNat - 48)) 0

theorem digitsVal_append_singleton (cs : List Char) (c : Char) :
    digitsVal (cs ++ [c]) = 10 * digitsVal cs + (c.toNat - 48) := by
  unfold digitsVal
  rw [List.foldl_append]
  rfl

theorem digitsVal_natRepr : ∀ n : ℕ, digitsVal (natRepr n) = n := by
  intro n
  induction n using Nat.strong_induction_on with
  | _ n ih =>
    by_cases h : n < 10
    · rw [natRepr_lt10 n h]
      show 10 * 0 + ((Nat.digitChar n).toNat - 48) = n
      rw [digitChar_toNat n h]
      omega
    · have hdiv : n / 10 < n := Nat.div_lt_self (by omega) (by omega)
      rw [natRepr_ge10 n h, digitsVal_append_singleton, ih (n / 10) hdiv,
        digitChar_toNat (n % 10) (Nat.mod_lt n (by omega))]
      omega

theorem natRepr_injective {m n : ℕ} (h : natRepr m = natRepr n) : m = n := by
  rw [← digitsVal_natRepr m, ← digitsVal_natRepr n, h]

theorem natRepr_map_toLower : ∀ n : ℕ, (natRepr n).map Char.toLower = natRepr n := by
  intro n
  induction n using Nat.strong_induction_on with
  | _ n ih =>
    by_cases h : n < 10
    · rw [natRepr_lt10 n h]
      simp [digitChar_toLower n h]
    · have hdiv : n / 10 < n := Nat.div_lt_self (by omega) (by omega)
      rw [natRepr_ge10 n h, List.map_append, ih (n / 10) hdiv]
      simp [digitChar_toLower (n % 10) (Nat.mod_lt n (by omega))]

theorem candidateName_data (stem : String) (k : ℕ) :
    (candidateName stem k).data =
      stem.data ++ (" (".data ++ (natRepr k ++ ").pdf".data)) := by
  show (stem ++ " (" ++ ⟨natRepr k⟩ ++ ").pdf").data = _
  simp [strData_append]

theorem strLower_candidateName (stem : String) (k : ℕ) :
    (strLower (candidateName stem k)).data =
      (strLower stem).data ++ (" (".data ++ (natRepr k ++ ").pdf".data)) := by
  show (candidateName stem k).data.map Char.toLower = _
  rw [candidateName_data]
  have h1 : " (".data.map Char.toLower = " (".data := by decide
  have h2 : ").pdf".data.map Char.toLower = ").pdf".data := by decide
  simp [List.map_append, natRepr_map_toLower, h1, h2, strLower]

theorem candidateName_lower_injective (stem : String) {m n : ℕ}
    (h : strLower (candidateName stem m) = strLower (candidateName stem n)) :
    m = n := by
  have hd := congrArg String.data h
  rw [strLower_candidateName, strLower_candidateName] at hd
  have h1 := List.append_cancel_left hd
  have h2 := List.append_cancel_left h1
  exact natRepr_injective (List.append_cancel_right h2)

/-- The keys of the registry. -/
def seenKeys (s : Seen) : List String := s.map (fun kv => kv.1)

theorem seenLookup_isSome_iff (s : Seen) (k : String) :
    (seenLookup s k).isSome ↔ k ∈ seenKeys s := by
  induction s with
  | nil => simp [seenLookup, seenKeys]
  | cons kv rest ih =>
    show (if kv.1 = k then some kv.2 else seenLookup rest k).isSome ↔ _
    by_cases h : kv.1 = k
    · simp [h, seenKeys]
    · simp only [if_neg h, ih, seenKeys, List.map_cons, List.mem_cons]
      constructor
      · exact fun hh => Or.inr hh
      · rintro (hh | hh)
        · exact absurd hh.symm h
        · exact hh

/-- Pigeonhole: among `seenLength s + 1` successive counters, some candidate
name is unregistered (the lowercased candidates are pairwise distinct). -/
theorem free_candidate_exists (s : Seen) (stem : String) (c : ℕ) :
    ∃ k ≤ seenLength s,
      (seenLookup s (strLower (candidateName stem (c + k)))).isNone := by
  by_contra hcon
  push_neg at hcon
  have hsome : ∀ k ≤ seenLength s,
      (seenLookup s (strLower (candidateName stem (c + k)))).isSome := by
    intro k hk
    have hne := hcon k hk
    cases ho : seenLookup s (strLower (candidateName stem (c + k)))
    · exact absurd (by rw [ho]; rfl) hne
    · rfl
  have hinj : Function.Injective
      (fun k : ℕ => strLower (candidateName stem (c + k))) := by
    intro a b hab
    have := candidateName_lower_injective stem hab
    omega
  have hnodup : ((List.range (seenLength s + 1)).map
      (fun k : ℕ => strLower (candidateName stem (c + k)))).Nodup :=
    (List.nodup_range _).map hinj
  have hsub : ((List.range (seenLength s + 1)).map
      (fun k : ℕ => strLower (candidateName stem (c + k)))) ⊆ seenKeys s := by
    intro x hx
    rcases List.mem_map.mp hx with ⟨k, hk, rfl⟩
    have hk' : k ≤ seenLength s := Nat.lt_succ_iff.mp (List.mem_range.mp hk)
    exact (seenLookup_isSome_iff _ _).mp (hsome k hk')
  have hle := (hnodup.subperm hsub).length_le
  rw [List.length_map, List.length_range] at hle
  have hkeys : (seenKeys s).length = seenLength s := by
    simp [seenKeys, seenLength]
  omega

/-- The fuel-based `while True` search returns the candidate with the LEAST
free counter ≥ the starting counter, provided some counter within the fuel
window is free. -/
theorem findFreeName_least : ∀ (fuel : ℕ) (seen : Seen) (stem : String) (c : ℕ),
    (∃ k < fuel, (seenLookup seen (strLower (candidateName stem (c + k)))).isNone) →
    ∃ N, findFreeName seen stem c fuel = candidateName stem N ∧
      c ≤ N ∧
      (seenLookup seen (strLower (candidateName stem N))).isNone ∧
      ∀ m, c ≤ m → m < N →
        (seenLookup seen (strLower (candidateName stem m))).isSome := by
  intro fuel
  induction fuel with
  | zero =>
    intro seen stem c h
    rcases h with ⟨k, hk, _⟩
    omega
  | succ f ih =>
    intro seen stem c h
    by_cases hc : (seenLookup seen (strLower (candidateName stem c))).isSome
    · rcases h with ⟨k, hk, hfree⟩
      have hk0 : k ≠ 0 := by
        intro h0
        subst h0
        rw [Nat.add_zero] at hfree
        rw [Option.isNone_iff_eq_none] at hfree
        rw [hfree] at hc
        exact Bool.false_ne_true hc
      have hrec := ih seen stem (c + 1)
        ⟨k - 1, by omega, by
          rw [show c + 1 + (k - 1) = c + k from by omega]
          exact hfree⟩
      rcases hrec with ⟨N, heq, hge, hfreeN, hleast⟩
      refine ⟨N, ?_, by omega, hfreeN, ?_⟩
      · show (if (seenLookup seen (strLower (candidateName stem c))).isSome
              then findFreeName seen stem (c + 1) f
              else candidateName stem c) = _
        rw [if_pos hc]
        exact heq
      · intro m hm1 hm2
        by_cases hmc : m = c
        · subst hmc; exact hc
        · exact hleast m (by omega) hm2
    · refine ⟨c, ?_, le_refl c, ?_, by omega⟩
      · show (if (seenLookup seen (strLower (candidateName stem c))).isSome
              then findFreeName seen stem (c + 1) f
              else candidateName stem c) = _
        rw [if_neg hc]
      · cases ho : seenLookup seen (strLower (candidateName stem c))
        · rfl
        · exact absurd (by rw [ho]; rfl) hc

/-- All values stored in the registry are 1 (the code only ever assigns 1). -/
def seenAllOne (s : Seen) : Prop := ∀ kv ∈ s, kv.2 = 1

theorem seedSeen_allOne (pdf_dir : List String) : seenAllOne (seedSeen pdf_dir) := by
  have key : ∀ (l : List String) (s : Seen), seenAllOne s →
      seenAllOne (l.foldl
        (fun s f => if isPdfFile f then seenInsert s (strLower f) 1 else s) s) := by
    intro l
    induction l with
    | nil => exact fun s h => h
    | cons f tl ih =>
      intro s h
      apply ih
      show seenAllOne (if isPdfFile f = true then seenInsert s (strLower f) 1 else s)
      by_cases hf : isPdfFile f
      · rw [if_pos hf]
        intro kv hkv
        rcases List.mem_cons.mp hkv with rfl | hkv2
        · rfl
        · exact h kv hkv2
      · rw [if_neg hf]
        exact h
  exact key pdf_dir [] (by intro kv hkv; simp at hkv)

theorem seenAllOne_insert {s : Seen} (h : seenAllOne s) (k : String) :
    seenAllOne (seenInsert s k 1) := by
  intro kv hkv
  rcases List.mem_cons.mp hkv with rfl | hkv2
  · rfl
  · exact h kv hkv2

theorem seenAllOne_lookup {s : Seen} {k : String} {v : ℕ}
    (h : seenAllOne s) (hl : seenLookup s k = some v) : v = 1 := by
  induction s with
  | nil => exact absurd hl (by simp [seenLookup])
  | cons kv rest ih =>
    have hl2 : (if kv.1 = k then some kv.2 else seenLookup rest k) = some v := hl
    by_cases hk : kv.1 = k
    · rw [if_pos hk] at hl2
      have := Option.some.inj hl2
      rw [← this]
      exact h kv (List.mem_cons_self _ _)
    · rw [if_neg hk] at hl2
      exact ih (fun x hx => h x (List.mem_cons_of_mem _ hx)) hl2

/-- One iteration of the `resolve_conflicts` loop (the body of
`resolveConflictsFull`, isolated so intermediate registries can be named). -/
def resolveEntry (s : Seen) (e : ReviewEntry) : ReviewEntry × Seen :=
  let name := e.new_filename
  let key := strLower name
  if key = strLower e.original_filename then
    (e, if (seenLookup s key).isNone then seenInsert s key 1 else s)
  else
    match seenLookup s key with
    | some v =>
      let stem := dropLast4 name
      let newName := findFreeName s stem (v + 1) (seenLength s + 1)
      ({ e with new_filename := newName }, seenInsert s (strLower newName) 1)
    | none => (e, seenInsert s key 1)

theorem resolveFull_cons_eq (s : Seen) (e : ReviewEntry) (rest : List ReviewEntry) :
    resolveConflictsFull s (e :: rest) =
      ((resolveEntry s e).1 :: (resolveConflictsFull (resolveEntry s e).2 rest).1,
       (resolveConflictsFull (resolveEntry s e).2 rest).2) := by
  simp only [resolveConflictsFull, resolveEntry]
  by_cases h : strLower e.new_filename = strLower e.original_filename
  · rw [if_pos h, if_pos h]
  · rw [if_neg h, if_neg h]
    cases hl : seenLookup s (strLower e.new_filename)
    · rfl
    · rfl

theorem resolveFull_length (l : List ReviewEntry) :
    ∀ s : Seen, (resolveConflictsFull s l).1.length = l.length := by
  induction l with
  | nil => intro s; rfl
  | cons e tl ih =>
    intro s
    rw [resolveFull_cons_eq]
    simp [ih]

theorem resolveFull_allOne (l : List ReviewEntry) :
    ∀ s : Seen, seenAllOne s → seenAllOne (resolveConflictsFull s l).2 := by
  induction l with
  | nil => exact fun s h => h
  | cons e tl ih =>
    intro s h
    rw [resolveFull_cons_eq]
    apply ih
    simp only [resolveEntry]
    by_cases h1 : strLower e.new_filename = strLower e.original_filename
    · rw [if_pos h1]
      by_cases h2 : (seenLookup s (strLower e.new_filename)).isNone
      · rw [if_pos h2]
        exact seenAllOne_insert h _
      · rw [if_neg h2]
        exact h
    · rw [if_neg h1]
      cases hl : seenLookup s (strLower e.new_filename)
      · exact seenAllOne_insert h _
      · exact seenAllOne_insert h _

theorem resolveFull_append (l1 l2 : List ReviewEntry) :
    ∀ s : Seen, resolveConflictsFull s (l1 ++ l2) =
      ((resolveConflictsFull s l1).1 ++
        (resolveConflictsFull (resolveConflictsFull s l1).2 l2).1,
       (resolveConflictsFull (resolveConflictsFull s l1).2 l2).2) := by
  induction l1 with
  | nil => intro s; rfl
  | cons e tl ih =>
    intro s
    rw [List.cons_append, resolveFull_cons_eq, ih, resolveFull_cons_eq]
    simp [List.cons_append]

theorem resolve_index (pdf_dir : List String) (entries : List ReviewEntry)
    (i : ℕ) (hi : i < entries.length) :
    (resolve_conflicts pdf_dir entries)[i]? =
      some (resolveEntry
        (resolveConflictsFull (seedSeen pdf_dir) (entries.take i)).2 entries[i]).1 := by
  have hsplit : entries = entries.take i ++ entries[i] :: entries.drop (i + 1) := by
    conv_lhs => rw [← List.take_append_drop i entries]
    congr 1
    exact List.drop_eq_getElem_cons hi
  have key : ∀ (l1 : List ReviewEntry) (x : ReviewEntry) (l2 : List ReviewEntry)
      (s : Seen),
      (resolveConflictsFull s (l1 ++ x :: l2)).1[l1.length]? =
        some (resolveEntry (resolveConflictsFull s l1).2 x).1 := by
    intro l1 x l2 s
    rw [resolveFull_append, resolveFull_cons_eq]
    simp only
    rw [List.getElem?_append_right (by rw [resolveFull_length])]
    rw [resolveFull_length]
    simp
  have htake : (entries.take i).length = i := by
    rw [List.length_take]
    omega
  have h2 := key (entries.take i) entries[i] (entries.drop (i + 1)) (seedSeen pdf_dir)
  rw [htake, ← hsplit] at h2
  show (resolveConflictsFull (seedSeen pdf_dir) entries).1[i]? = _
  exact h2

/-- Claim C1: if a record's proposed new name (compared case-insensitively) is
already registered — by a pre-existing `.pdf` file in the directory or by an
earlier record in the list, which is exactly the registry after processing the
first `i` records — and its lowercase form differs from the record's own
original filename, then the assigned name is the proposal with the SMALLEST
counter suffix `" (N)"`, `N ≥ 2`, inserted before `.pdf`, that is
unregistered (so the plan is collision-free at that step); in particular, with
existing file `Book.pdf`, two records proposing `Book.pdf` resolve to
`Book (2).pdf` and `Book (3).pdf`. -/
theorem claim_C1_conflict_resolution :
    (∀ (pdf_dir : List String) (entries : List ReviewEntry) (i : ℕ)
        (hi : i < entries.length),
      strLower entries[i].new_filename ≠ strLower entries[i].original_filename →
      (seenLookup (resolveConflictsFull (seedSeen pdf_dir) (entries.take i)).2
        (strLower entries[i].new_filename)).isSome →
      ∃ N, 2 ≤ N ∧
        (resolve_conflicts pdf_dir entries)[i]? =
          some { entries[i] with
                 new_filename := candidateName (dropLast4 entries[i].new_filename) N } ∧
        (seenLookup (resolveConflictsFull (seedSeen pdf_dir) (entries.take i)).2
          (strLower (candidateName (dropLast4 entries[i].new_filename) N))).isNone ∧
        (∀ m, 2 ≤ m → m < N →
          (seenLookup (resolveConflictsFull (seedSeen pdf_dir) (entries.take i)).2
            (strLower (candidateName (dropLast4 entries[i].new_filename) m))).isSome)) ∧
    (resolve_conflicts ["Book.pdf"]
        [⟨"a.pdf", "T", "W", "Book.pdf", 1, "yes", "", "", ""⟩,
         ⟨"b.pdf", "T", "W", "Book.pdf", 1, "yes", "", "", ""⟩]).map
      (fun e => e.new_filename) = ["Book (2).pdf", "Book (3).pdf"] := by
  constructor
  · intro pdf_dir entries i hi hne hreg
    have hallone : seenAllOne
        (resolveConflictsFull (seedSeen pdf_dir) (entries.take i)).2 :=
      resolveFull_allOne _ _ (seedSeen_allOne pdf_dir)
    rcases Option.isSome_iff_exists.mp hreg with ⟨v, hv⟩
    have hv1 : v = 1 := seenAllOne_lookup hallone hv
    rcases free_candidate_exists
      (resolveConflictsFull (seedSeen pdf_dir) (entries.take i)).2
      (dropLast4 entries[i].new_filename) 2 with ⟨k, hk, hfreek⟩
    rcases findFreeName_least
      (seenLength (resolveConflictsFull (seedSeen pdf_dir) (entries.take i)).2 + 1)
      (resolveConflictsFull (seedSeen pdf_dir) (entries.take i)).2
      (dropLast4 entries[i].new_filename) 2
      ⟨k, by simpa [seenLength] using Nat.lt_succ_of_le hk, hfreek⟩
      with ⟨N, heqN, hN2, hNfree, hNleast⟩
    refine ⟨N, hN2, ?_, hNfree, fun m hm2 hmN => hNleast m hm2 hmN⟩
    rw [resolve_index pdf_dir entries i hi]
    congr 1
    simp only [resolveEntry]
    rw [if_neg hne, hv]
    simp only
    rw [hv1]
    exact congrArg (fun nm => { entries[i] with new_filename := nm }) heqN
  · decide

/-- Witness for C1's general statement at a concrete input: directory
`["Book.pdf"]`, one record proposing `Book.pdf`; the least free counter is 2. -/
theorem claim_C1_conflict_resolution_witness :
    ∃ N, 2 ≤ N ∧
      (resolve_conflicts ["Book.pdf"]
        [⟨"a.pdf", "T", "W", "Book.pdf", 1, "yes", "", "", ""⟩])[0]? =
        some { (⟨"a.pdf", "T", "W", "Book.pdf", 1, "yes", "", "", ""⟩ : ReviewEntry) with
               new_filename := candidateName (dropLast4 "Book.pdf") N } ∧
      (seenLookup (resolveConflictsFull (seedSeen ["Book.pdf"])
          (([⟨"a.pdf", "T", "W", "Book.pdf", 1, "yes", "", "", ""⟩] :
            List ReviewEntry).take 0)).2
        (strLower (candidateName (dropLast4 "Book.pdf") N))).isNone ∧
      (∀ m, 2 ≤ m → m < N →
        (seenLookup (resolveConflictsFull (seedSeen ["Book.pdf"])
            (([⟨"a.pdf", "T", "W", "Book.pdf", 1, "yes", "", "", ""⟩] :
              List ReviewEntry).take 0)).2
          (strLower (candidateName (dropLast4 "Book.pdf") m))).isSome) :=
  claim_C1_conflict_resolution.1 ["Book.pdf"]
    [⟨"a.pdf", "T", "W", "Book.pdf", 1, "yes", "", "", ""⟩] 0 (by decide)
    (by decide) (by decide)

/-! ## review_file.py CSV persistence (claim C5)

Python serializes `confidence` with `str(float)` and parses it back with
`float(str)`, which is exact on floats; the model uses exact decimal
printing/parsing of rationals whose denominator divides a power of ten. -/

/-- Smallest exponent `k` (searched within `fuel` steps) with `den ∣ 10 ^ k`. -/
def decExpAux (den : ℕ) : ℕ → ℕ → ℕ
  | k, 0 => k
  | k, fuel + 1 => if den ∣ 10 ^ k then k else decExpAux den (k + 1) fuel

def decExp (den : ℕ) : ℕ := decExpAux den 0 31

theorem decExpAux_dvd : ∀ (fuel k den : ℕ),
    (∃ j, j < fuel ∧ den ∣ 10 ^ (k + j)) → den ∣ 10 ^ decExpAux den k fuel := by
  intro fuel
  induction fuel with
  | zero => intro k den h; rcases h with ⟨j, hj, _⟩; omega
  | succ f ih =>
    intro k den h
    show den ∣ 10 ^ (if den ∣ 10 ^ k then k else decExpAux den (k + 1) f)
    by_cases hk : den ∣ 10 ^ k
    · rw [if_pos hk]; exact hk
    · rw [if_neg hk]
      rcases h with ⟨j, hj, hdvd⟩
      have hj0 : j ≠ 0 := by
        intro h0
        subst h0
        rw [Nat.add_zero] at hdvd
        exact hk hdvd
      exact ih (k + 1) den ⟨j - 1, by omega,
        by rw [show k + 1 + (j - 1) = k + j from by omega]; exact hdvd⟩

theorem decExp_dvd (den : ℕ) (h : den ∣ 10 ^ 30) : den ∣ 10 ^ decExp den :=
  decExpAux_dvd 31 0 den ⟨30, by omega, by simpa using h⟩

/-- Model of `str(float)` on an exactly-decimal rational. -/
def ratToDecimalString (q : ℚ) : String :=
  let k := decExp q.den
  let scaled := q.num.natAbs * (10 ^ k / q.den)
  let ip := scaled / 10 ^ k
  let fp := scaled % 10 ^ k
  let fracDigits := if k = 0 then ['0']
    else List.replicate (k - (natRepr fp).length) '0' ++ natRepr fp
  ⟨(if q.num < 0 then ['-'] else []) ++ natRepr ip ++ '.' :: fracDigits⟩

def isDigitChar (c : Char) : Bool := 48 ≤ c.toNat ∧ c.toNat ≤ 57

/-- Model of Python `float(s)` on the simple decimal forms the writer emits. -/
def digitsToNat? (cs : List Char) : Option ℕ :=
  if cs ≠ [] ∧ cs.all isDigitChar then some (digitsVal cs) else none

def notDot (c : Char) : Bool := c ≠ '.'

def parseUnsignedFloat? (cs : List Char) : Option ℚ :=
  let ip := cs.takeWhile notDot
  let rest := cs.dropWhile notDot
  -- `rest` is empty or starts with the decimal point
  if rest = [] then (digitsToNat? ip).map (fun n => (n : ℚ))
  else
    match digitsToNat? ip, digitsToNat? rest.tail with
    | some n, some f => some ((n : ℚ) + mkRat f (10 ^ rest.tail.length))
    | _, _ => none

def parseFloat? (s : String) : Option ℚ :=
  match s.data with
  | [] => none
  | c :: rest =>
    if c = '-' then (parseUnsignedFloat? rest).map (fun q => -q)
    else parseUnsignedFloat? (c :: rest)

theorem natRepr_ne_nil (n : ℕ) : natRepr n ≠ [] := by
  by_cases h : n < 10
  · rw [natRepr_lt10 n h]; simp
  · rw [natRepr_ge10 n h]; simp

theorem natRepr_all_digits : ∀ n : ℕ, ∀ c ∈ natRepr n, isDigitChar c = true := by
  intro n
  induction n using Nat.strong_induction_on with
  | _ n ih =>
    intro c hc
    by_cases h : n < 10
    · rw [natRepr_lt10 n h] at hc
      simp only [List.mem_singleton] at hc
      subst hc
      interval_cases n <;> decide
    · have hdiv : n / 10 < n := Nat.div_lt_self (by omega) (by omega)
      rw [natRepr_ge10 n h] at hc
      rcases List.mem_append.mp hc with h2 | h2
      · exact ih (n / 10) hdiv c h2
      · simp only [List.mem_singleton] at h2
        subst h2
        have hlt : n % 10 < 10 := Nat.mod_lt n (by omega)
        interval_cases hm : n % 10 <;> simp_all <;> decide

theorem isDigitChar_ne_dot {c : Char} (h : isDigitChar c = true) : c ≠ '.' := by
  intro hc
  subst hc
  simp [isDigitChar] at h

theorem digitsToNat_natRepr (n : ℕ) : digitsToNat? (natRepr n) = some n := by
  unfold digitsToNat?
  rw [if_pos ⟨natRepr_ne_nil n, List.all_eq_true.mpr (natRepr_all_digits n)⟩,
    digitsVal_natRepr]

theorem takeWhile_append_all {p : Char → Bool} (a b : List Char)
    (ha : ∀ c ∈ a, p c = true) :
    (a ++ b).takeWhile p = a ++ b.takeWhile p := by
  induction a with
  | nil => simp
  | cons c a ih =>
    rw [List.cons_append, List.takeWhile_cons, if_pos (ha c (List.mem_cons_self _ _)),
      ih (fun x hx => ha x (List.mem_cons_of_mem _ hx))]
    rfl

theorem dropWhile_append_all {p : Char → Bool} (a b : List Char)
    (ha : ∀ c ∈ a, p c = true) :
    (a ++ b).dropWhile p = b.dropWhile p := by
  induction a with
  | nil => simp
  | cons c a ih =>
    rw [List.cons_append, List.dropWhile_cons, if_pos (ha c (List.mem_cons_self _ _)),
      ih (fun x hx => ha x (List.mem_cons_of_mem _ hx))]

theorem digitsVal_replicate_zero (m : ℕ) (ds : List Char) :
    digitsVal (List.replicate m '0' ++ ds) = digitsVal ds := by
  unfold digitsVal
  rw [List.foldl_append]
  congr 1
  induction m with
  | zero => rfl
  | succ mm ih =>
    rw [List.replicate_succ, List.foldl_cons]
    exact ih

theorem natRepr_length_le : ∀ (k n : ℕ), n < 10 ^ k → 1 ≤ k →
    (natRepr n).length ≤ k := by
  intro k
  induction k with
  | zero => omega
  | succ kk ih =>
    intro n hn _
    by_cases h : n < 10
    · rw [natRepr_lt10 n h]; simp
    · have hdiv : n / 10 < 10 ^ kk := by
        rw [Nat.div_lt_iff_lt_mul (by omega)]
        calc n < 10 ^ (kk + 1) := hn
        _ = 10 ^ kk * 10 := by ring
      have hkk : 1 ≤ kk := by
        by_contra hk0
        have : kk = 0 := by omega
        subst this
        simp at hdiv
        omega
      rw [natRepr_ge10 n h, List.length_append]
      have := ih (n / 10) hdiv hkk
      simp
      omega

theorem parseUnsignedFloat_repr (ip fp k : ℕ) (hfp : fp < 10 ^ k) :
    parseUnsignedFloat? (natRepr ip ++ '.' ::
        (if k = 0 then ['0']
         else List.replicate (k - (natRepr fp).length) '0' ++ natRepr fp)) =
      some ((ip : ℚ) + (fp : ℚ) / 10 ^ (if k = 0 then 1 else k)) := by
  have hdigs : ∀ c ∈ natRepr ip, notDot c = true := by
    intro c hc
    simpa [notDot] using isDigitChar_ne_dot (natRepr_all_digits ip c hc)
  unfold parseUnsignedFloat?
  simp only
  rw [takeWhile_append_all _ _ hdigs, dropWhile_append_all _ _ hdigs,
    show List.takeWhile notDot ('.' ::
      (if k = 0 then ['0']
       else List.replicate (k - (natRepr fp).length) '0' ++ natRepr fp)) = []
      from rfl,
    show List.dropWhile notDot ('.' ::
      (if k = 0 then ['0']
       else List.replicate (k - (natRepr fp).length) '0' ++ natRepr fp)) = '.' ::
      (if k = 0 then ['0']
       else List.replicate (k - (natRepr fp).length) '0' ++ natRepr fp)
      from rfl,
    List.append_nil, if_neg (List.cons_ne_nil _ _), List.tail_cons,
    digitsToNat_natRepr]
  by_cases hk : k = 0
  · subst hk
    norm_num
    rw [show digitsToNat? ['0'] = some 0 from by decide]
    norm_num [Rat.mkRat_eq_div]
    omega
  · rw [if_neg hk, if_neg hk]
    have hlen : (natRepr fp).length ≤ k :=
      natRepr_length_le k fp hfp (by omega)
    have hfrac_len : (List.replicate (k - (natRepr fp).length) '0' ++ natRepr fp).length = k := by
      rw [List.length_append, List.length_replicate]
      omega
    have hnonempty : (List.replicate (k - (natRepr fp).length) '0' ++ natRepr fp) ≠ [] := by
      intro hnil
      have := congrArg List.length hnil
      rw [hfrac_len] at this
      simp at this
      omega
    have halldig : ∀ c ∈ List.replicate (k - (natRepr fp).length) '0' ++ natRepr fp,
        isDigitChar c = true := by
      intro c hc
      rcases List.mem_append.mp hc with h2 | h2
      · rw [List.eq_of_mem_replicate h2]
        decide
      · exact natRepr_all_digits fp c h2
    rw [show digitsToNat? (List.replicate (k - (natRepr fp).length) '0' ++ natRepr fp) =
        some fp from by
      unfold digitsToNat?
      rw [if_pos ⟨hnonempty, List.all_eq_true.mpr halldig⟩, digitsVal_replicate_zero,
        digitsVal_natRepr]]
    rw [hfrac_len]
    show some ((ip : ℚ) + mkRat (fp : ℤ) (10 ^ k)) = some ((ip : ℚ) + (fp : ℚ) / 10 ^ k)
    rw [Rat.mkRat_eq_div]
    push_cast
    ring_nf

theorem decimal_value_eq (q : ℚ) (hdvd : q.den ∣ 10 ^ decExp q.den) :
    ((q.num.natAbs * (10 ^ decExp q.den / q.den) / 10 ^ decExp q.den : ℕ) : ℚ) +
      ((q.num.natAbs * (10 ^ decExp q.den / q.den) % 10 ^ decExp q.den : ℕ) : ℚ) /
        10 ^ (if decExp q.den = 0 then 1 else decExp q.den) = |q| := by
  have hden0 : (q.den : ℚ) ≠ 0 := Nat.cast_ne_zero.mpr q.den_nz
  have habs : |q| = (q.num.natAbs : ℚ) / (q.den : ℚ) := by
    conv_lhs => rw [← Rat.num_div_den q]
    rw [abs_div, abs_of_nonneg (show (0 : ℚ) ≤ (q.den : ℚ) by positivity)]
    congr 1
    rw [Int.cast_natAbs, Int.cast_abs]
  by_cases hk : decExp q.den = 0
  · have hden1 : q.den = 1 := Nat.dvd_one.mp (by rw [hk] at hdvd; simpa using hdvd)
    rw [hk, habs, hden1]
    simp [Nat.mod_one]
  · rw [if_neg hk]
    have hdm := Nat.div_add_mod (q.num.natAbs * (10 ^ decExp q.den / q.den))
      (10 ^ decExp q.den)
    have hsd : q.num.natAbs * (10 ^ decExp q.den / q.den) * q.den =
        q.num.natAbs * 10 ^ decExp q.den := by
      rw [Nat.mul_assoc, Nat.div_mul_cancel hdvd]
    have hdmQ : (10 : ℚ) ^ decExp q.den *
          ((q.num.natAbs * (10 ^ decExp q.den / q.den) / 10 ^ decExp q.den : ℕ) : ℚ) +
          ((q.num.natAbs * (10 ^ decExp q.den / q.den) % 10 ^ decExp q.den : ℕ) : ℚ) =
        ((q.num.natAbs * (10 ^ decExp q.den / q.den) : ℕ) : ℚ) := by
      exact_mod_cast hdm
    have hsdQ : ((q.num.natAbs * (10 ^ decExp q.den / q.den) : ℕ) : ℚ) * (q.den : ℚ) =
        (q.num.natAbs : ℚ) * 10 ^ decExp q.den := by
      exact_mod_cast hsd
    rw [habs]
    have h10 : ((10 : ℚ) ^ decExp q.den) ≠ 0 := by positivity
    field_simp
    linear_combination (q.den : ℚ) * hdmQ + hsdQ

theorem parseFloat_eq (s : String) (c : Char) (rest : List Char)
    (h : s.data = c :: rest) :
    parseFloat? s = if c = '-' then (parseUnsignedFloat? rest).map (fun x => -x)
      else parseUnsignedFloat? (c :: rest) := by
  unfold parseFloat?
  rw [h]

theorem parseFloat_ratToDecimal (q : ℚ) (h : q.den ∣ 10 ^ 30) :
    parseFloat? (ratToDecimalString q) = some q := by
  have hdvd : q.den ∣ 10 ^ decExp q.den := decExp_dvd q.den h
  have hpow : 0 < 10 ^ decExp q.den := by positivity
  have hfp : q.num.natAbs * (10 ^ decExp q.den / q.den) % 10 ^ decExp q.den <
      10 ^ decExp q.den := Nat.mod_lt _ hpow
  have hdata : (ratToDecimalString q).data =
      (if q.num < 0 then ['-'] else []) ++
        natRepr (q.num.natAbs * (10 ^ decExp q.den / q.den) / 10 ^ decExp q.den) ++
        '.' :: (if decExp q.den = 0 then ['0']
          else List.replicate (decExp q.den - (natRepr (q.num.natAbs *
            (10 ^ decExp q.den / q.den) % 10 ^ decExp q.den)).length) '0' ++
            natRepr (q.num.natAbs * (10 ^ decExp q.den / q.den) %
              10 ^ decExp q.den)) := rfl
  have hA := parseUnsignedFloat_repr
    (q.num.natAbs * (10 ^ decExp q.den / q.den) / 10 ^ decExp q.den)
    (q.num.natAbs * (10 ^ decExp q.den / q.den) % 10 ^ decExp q.den)
    (decExp q.den) hfp
  have hB := decimal_value_eq q hdvd
  by_cases hneg : q.num < 0
  · have hq : q < 0 := by
      rw [← Rat.num_div_den q]
      apply div_neg_of_neg_of_pos
      · exact_mod_cast hneg
      · positivity
    rw [parseFloat_eq (ratToDecimalString q) '-'
        (natRepr (q.num.natAbs * (10 ^ decExp q.den / q.den) / 10 ^ decExp q.den) ++
          '.' :: (if decExp q.den = 0 then ['0']
            else List.replicate (decExp q.den - (natRepr (q.num.natAbs *
              (10 ^ decExp q.den / q.den) % 10 ^ decExp q.den)).length) '0' ++
              natRepr (q.num.natAbs * (10 ^ decExp q.den / q.den) %
                10 ^ decExp q.den)))
        (by rw [hdata, if_pos hneg]; rfl),
      if_pos rfl, hA]
    simp only [Option.map_some']
    rw [hB, abs_of_neg hq, neg_neg]
  · have hq : 0 ≤ q := by
      rw [← Rat.num_div_den q]
      apply div_nonneg
      · exact_mod_cast not_lt.mp hneg
      · positivity
    obtain ⟨c, cs2, hcons⟩ := List.exists_cons_of_ne_nil (natRepr_ne_nil
      (q.num.natAbs * (10 ^ decExp q.den / q.den) / 10 ^ decExp q.den))
    have hc_digit : isDigitChar c = true := natRepr_all_digits _ c
      (by rw [hcons]; exact List.mem_cons_self _ _)
    have hcne : c ≠ '-' := by
      intro hcc
      subst hcc
      simp [isDigitChar] at hc_digit
    rw [parseFloat_eq (ratToDecimalString q) c
        (cs2 ++ '.' :: (if decExp q.den = 0 then ['0']
          else List.replicate (decExp q.den - (natRepr (q.num.natAbs *
            (10 ^ decExp q.den / q.den) % 10 ^ decExp q.den)).length) '0' ++
            natRepr (q.num.natAbs * (10 ^ decExp q.den / q.den) %
              10 ^ decExp q.den)))
        (by rw [hdata, if_neg hneg, hcons]; rfl),
      if_neg hcne,
      show c :: (cs2 ++ '.' :: (if decExp q.den = 0 then ['0']
          else List.replicate (decExp q.den - (natRepr (q.num.natAbs *
            (10 ^ decExp q.den / q.den) % 10 ^ decExp q.den)).length) '0' ++
            natRepr (q.num.natAbs * (10 ^ decExp q.den / q.den) %
              10 ^ decExp q.den))) =
        natRepr (q.num.natAbs * (10 ^ decExp q.den / q.den) / 10 ^ decExp q.den) ++
          '.' :: (if decExp q.den = 0 then ['0']
          else List.replicate (decExp q.den - (natRepr (q.num.natAbs *
            (10 ^ decExp q.den / q.den) % 10 ^ decExp q.den)).length) '0' ++
            natRepr (q.num.natAbs * (10 ^ decExp q.den / q.den) %
              10 ^ decExp q.den))
        from by rw [hcons]; rfl,
      hA, hB, abs_of_nonneg hq]

/-- QUOTE_MINIMAL: a cell is quoted iff it contains the delimiter, the quote
character, or a line-terminator character. -/
def needsQuoting (s : String) : Bool :=
  s.data.any (fun c => c = ',' ∨ c = '"' ∨ c = '\r' ∨ c = '\n')

/-- Double every quote character (the `doublequote` dialect setting). -/
def escapeQuotes : List Char → List Char
  | [] => []
  | c :: rest =>
    if c = '"' then '"' :: '"' :: escapeQuotes rest else c :: escapeQuotes rest

/-- Serialize one cell as `csv.writer` does under QUOTE_MINIMAL. -/
def writeCell (s : String) : List Char :=
  if needsQuoting s then '"' :: (escapeQuotes s.data ++ ['"']) else s.data

/-- Join cells with the `,` delimiter. -/
def joinComma : List (List Char) → List Char
  | [] => []
  | [c] => c
  | c :: cs => c ++ ',' :: joinComma cs

/-- One CSV record line, terminated by `\r\n` (the default lineterminator). -/
def writeRecordLine (cells : List String) : List Char :=
  joinComma (cells.map writeCell) ++ ['\r', '\n']

/-- The fixed header of `write_csv` (`FIELDNAMES` in `review_file.py`). -/
def FIELDNAMES : List String :=
  ["original_filename", "suggested_title", "suggested_author", "new_filename",
   "confidence", "approve", "language", "edition", "notes"]

/-- The row `write_csv` emits for one entry (`writer.writerow({...})`), with
`str(entry.confidence)` modelled by exact decimal printing. -/
def entryCells (e : ReviewEntry) : List String :=
  [e.original_filename, e.suggested_title, e.suggested_author, e.new_filename,
   ratToDecimalString e.confidence, e.approve, e.language, e.edition, e.notes]

/-- Embedding of `write_csv` (`review_file.py`): UTF-8-sig adds a byte-order
mark, then the header row, then one row per entry, in order. -/
def write_csv (entries : List ReviewEntry) : String :=
  ⟨'﻿' :: (writeRecordLine FIELDNAMES ++
    (entries.map (fun e => writeRecordLine (entryCells e))).flatten)⟩

/-- Parser for a quoted cell body (after the opening quote): `""` is a
literal quote, a lone `"` closes the cell.  Structural fuel; any fuel above
the remaining input length suffices. -/
def parseQuotedCell : ℕ → List Char → List Char → Option (List Char × List Char)
  | 0, _, _ => none
  | fuel + 1, acc, cs =>
    match cs with
    | [] => none
    | c :: rest =>
      if c = '"' then
        match rest with
        | [] => some (acc, [])
        | c2 :: rest2 =>
          if c2 = '"' then parseQuotedCell fuel (acc ++ ['"']) rest2
          else some (acc, rest)
      else parseQuotedCell fuel (acc ++ [c]) rest

def isCellEnd (c : Char) : Bool := c = ',' ∨ c = '\r' ∨ c = '\n'

/-- Parse one cell; returns the cell text and the rest of the input starting
at the delimiter (or line end). -/
def parseCell (fuel : ℕ) (cs : List Char) : Option (List Char × List Char) :=
  if cs.head? = some '"' then parseQuotedCell fuel [] cs.tail
  else some (cs.takeWhile (fun c => !isCellEnd c), cs.dropWhile (fun c => !isCellEnd c))

/-- Parse one record up to and including its `\n` terminator (or the end of
input).  The reader sees the file through Python's universal-newline text
layer, which has already turned every `\r\n` and `\r` into `\n`, so `\n` is
the only record terminator that can occur. -/
def parseRecordAux : ℕ → List Char → Option (List String × List Char)
  | 0, _ => none
  | fuel + 1, cs =>
    match parseCell (cs.length + 1) cs with
    | none => none
    | some (cell, rest) =>
      match rest with
      | [] => some ([⟨cell⟩], [])
      | c :: rest2 =>
        if c = ',' then
          match parseRecordAux fuel rest2 with
          | some (cells, rest3) => some (⟨cell⟩ :: cells, rest3)
          | none => none
        else if c = '\n' then some ([⟨cell⟩], rest2)
        else none

/-- Parse all records of the input. -/
def parseRecordsAux : ℕ → List Char → Option (List (List String))
  | 0, _ => none
  | fuel + 1, cs =>
    if cs = [] then some []
    else
      match parseRecordAux (cs.length + 1) cs with
      | some (cells, rest) => (parseRecordsAux fuel rest).map (fun rs => cells :: rs)
      | none => none

/-- Parse a CSV file: UTF-8-sig strips one leading byte-order mark. -/
def parseCsv (content : String) : Option (List (List String)) :=
  let cs := if content.data.head? = some '﻿' then content.data.tail
            else content.data
  parseRecordsAux (cs.length + 1) cs

/-- `DictReader`-style column access: position of the key in the header row,
then that cell of the record (absent cells are `none`). -/
def colValue (header row : List String) (key : String) : Option String :=
  match header.indexOf? key with
  | some i => row[i]?
  | none => none

/-- Python `str.strip()`: drop whitespace from both ends. -/
def pyStrip (s : String) : String :=
  ⟨((s.data.dropWhile Char.isWhitespace).reverse.dropWhile Char.isWhitespace).reverse⟩

/-- Build a `ReviewEntry` from one CSV row, as the loop body of `read_csv`
does: required columns must be present, `confidence` parsed as float,
`approve` stripped and lowercased, the optional columns defaulting to "". -/
def rowToEntry (header row : List String) : Option ReviewEntry :=
  match colValue header row "original_filename", colValue header row "suggested_title",
        colValue header row "suggested_author", colValue header row "new_filename",
        colValue header row "confidence", colValue header row "approve" with
  | some orig, some title, some author, some newf, some conf, some appr =>
    (parseFloat? conf).map (fun c =>
      { original_filename := orig
        suggested_title := title
        suggested_author := author
        new_filename := newf
        confidence := c
        approve := strLower (pyStrip appr)
        language := (colValue header row "language").getD ""
        edition := (colValue header row "edition").getD ""
        notes := (colValue header row "notes").getD "" })
  | _, _, _, _, _, _ => none

/-- Python's universal-newline translation: `open(path, "r", ...)` without
`newline=''` converts every `\r\n` pair and every lone `\r` of the decoded
text to `\n` — including carriage returns inside quoted CSV fields, before
the `csv` reader ever sees them. -/
def universalNewlines : List Char → List Char
  | [] => []
  | [c] => if c = '\r' then ['\n'] else [c]
  | c :: c2 :: rest =>
    if c = '\r' then
      if c2 = '\n' then '\n' :: universalNewlines rest
      else '\n' :: universalNewlines (c2 :: rest)
    else c :: universalNewlines (c2 :: rest)

/-- Embedding of `read_csv` (`review_file.py`): the file is read through the
universal-newline text layer (the `open` has no `newline=''`), then parsed;
the first record is the header, each remaining row is converted; any failure
(malformed CSV, missing required column, non-numeric confidence) is `none`,
mirroring the exception. -/
def read_csv (content : String) : Option (List ReviewEntry) :=
  match parseCsv ⟨universalNewlines content.data⟩ with
  | none => none
  | some [] => some []
  | some (header :: rows) =>
    rows.foldr (fun row acc =>
      match rowToEntry header row, acc with
      | some e, some l => some (e :: l)
      | _, _ => none) (some [])

theorem strMk_data (s : String) : String.mk s.data = s := rfl

theorem escapeQuotes_no_quote {cs : List Char} (h : ∀ c ∈ cs, c ≠ '"') :
    escapeQuotes cs = cs := by
  induction cs with
  | nil => rfl
  | cons c rest ih =>
    unfold escapeQuotes
    rw [if_neg (h c (List.mem_cons_self _ _)), ih (fun x hx => h x (List.mem_cons_of_mem _ hx))]

theorem needsQuoting_false_chars {s : String} (h : needsQuoting s = false) :
    ∀ c ∈ s.data, isCellEnd c = false ∧ c ≠ '"' := by
  intro c hc
  unfold needsQuoting at h
  rw [List.any_eq_false] at h
  have h2 := h c hc
  simp only [decide_eq_true_eq] at h2
  push_neg at h2
  refine ⟨?_, h2.2.1⟩
  unfold isCellEnd
  simp [h2.1, h2.2.2.1, h2.2.2.2]

theorem escapeQuotes_cons (c : Char) (rest : List Char) :
    escapeQuotes (c :: rest) =
      if c = '"' then '"' :: '"' :: escapeQuotes rest
      else c :: escapeQuotes rest := rfl

theorem parseQuotedCell_cons (f : ℕ) (acc : List Char) (c : Char) (rest : List Char) :
    parseQuotedCell (f + 1) acc (c :: rest) =
      if c = '"' then
        (match rest with
         | [] => some (acc, [])
         | c2 :: rest2 =>
           if c2 = '"' then parseQuotedCell f (acc ++ ['"']) rest2
           else some (acc, rest))
      else parseQuotedCell f (acc ++ [c]) rest := by
  simp only [parseQuotedCell]

theorem parseQuotedCell_escape : ∀ (cs : List Char) (fuel : ℕ) (acc : List Char)
    (d : Char) (r : List Char), d ≠ '"' → (escapeQuotes cs).length < fuel →
    parseQuotedCell fuel acc (escapeQuotes cs ++ '"' :: d :: r) =
      some (acc ++ cs, d :: r) := by
  intro cs
  induction cs with
  | nil =>
    intro fuel acc d r hd hfuel
    cases fuel with
    | zero => omega
    | succ f =>
      show parseQuotedCell (f + 1) acc ('"' :: d :: r) = some (acc ++ [], d :: r)
      rw [parseQuotedCell_cons, if_pos rfl]
      show (if d = '"' then parseQuotedCell f (acc ++ ['"']) r
            else some (acc, d :: r)) = some (acc ++ [], d :: r)
      rw [if_neg hd, List.append_nil]
  | cons c rest ih =>
    intro fuel acc d r hd hfuel
    by_cases hc : c = '"'
    · subst hc
      rw [show escapeQuotes ('"' :: rest) = '"' :: '"' :: escapeQuotes rest from by
        rw [escapeQuotes_cons, if_pos rfl]] at hfuel ⊢
      cases fuel with
      | zero => simp at hfuel
      | succ f =>
        rw [List.cons_append, List.cons_append, parseQuotedCell_cons, if_pos rfl]
        show (if '"' = '"' then parseQuotedCell f (acc ++ ['"']) (escapeQuotes rest ++ '"' :: d :: r)
              else some (acc, '"' :: (escapeQuotes rest ++ '"' :: d :: r))) = _
        rw [if_pos rfl, ih f (acc ++ ['"']) d r hd (by simp at hfuel; omega)]
        simp
    · rw [show escapeQuotes (c :: rest) = c :: escapeQuotes rest from by
        rw [escapeQuotes_cons, if_neg hc]] at hfuel ⊢
      cases fuel with
      | zero => simp at hfuel
      | succ f =>
        rw [List.cons_append, parseQuotedCell_cons, if_neg hc,
          ih f (acc ++ [c]) d r hd (by simp at hfuel; omega)]
        simp

theorem escapeQuotes_length_le_writeCell (s : String) :
    (escapeQuotes s.data).length ≤ (writeCell s).length := by
  unfold writeCell
  by_cases hq : needsQuoting s
  · rw [if_pos hq]
    simp
    omega
  · rw [if_neg hq]
    rw [escapeQuotes_no_quote (fun c hc =>
      (needsQuoting_false_chars (eq_false_of_ne_true hq) c hc).2)]

theorem parseCell_writeCell (s : String) (d : Char) (r : List Char) (fuel : ℕ)
    (hd_end : isCellEnd d = true) (hd_quote : d ≠ '"')
    (hfuel : (escapeQuotes s.data).length < fuel) :
    parseCell fuel (writeCell s ++ d :: r) = some (s.data, d :: r) := by
  unfold parseCell writeCell
  by_cases hq : needsQuoting s
  · rw [if_pos hq]
    rw [show ('"' :: (escapeQuotes s.data ++ ['"'])) ++ d :: r =
      '"' :: (escapeQuotes s.data ++ '"' :: d :: r) from by simp]
    rw [if_pos (show (('"' :: (escapeQuotes s.data ++ '"' :: d :: r)).head? = some '"')
      from rfl)]
    show parseQuotedCell fuel [] (escapeQuotes s.data ++ '"' :: d :: r) = _
    rw [parseQuotedCell_escape s.data fuel [] d r hd_quote hfuel]
    rfl
  · rw [if_neg hq]
    have hchars := needsQuoting_false_chars (eq_false_of_ne_true hq)
    have hnotend : ∀ c ∈ s.data, (fun c => !isCellEnd c) c = true := by
      intro c hc
      simp [(hchars c hc).1]
    have hhead : ¬ ((s.data ++ d :: r).head? = some '"') := by
      cases hs : s.data with
      | nil =>
        simp only [hs, List.nil_append, List.head?_cons, Option.some.injEq]
        exact hd_quote
      | cons c cs2 =>
        have hcq := (hchars c (by rw [hs]; exact List.mem_cons_self _ _)).2
        simp only [hs, List.cons_append, List.head?_cons, Option.some.injEq]
        exact hcq
    rw [if_neg hhead, takeWhile_append_all _ _ hnotend, dropWhile_append_all _ _ hnotend]
    simp [List.takeWhile_cons, List.dropWhile_cons, hd_end]

theorem parseRecordAux_succ (f : ℕ) (cs : List Char) :
    parseRecordAux (f + 1) cs =
      match parseCell (cs.length + 1) cs with
      | none => none
      | some (cell, rest) =>
        match rest with
        | [] => some ([⟨cell⟩], [])
        | c :: rest2 =>
          if c = ',' then
            match parseRecordAux f rest2 with
            | some (cells, rest3) => some (⟨cell⟩ :: cells, rest3)
            | none => none
          else if c = '\n' then some ([⟨cell⟩], rest2)
          else none := by
  simp only [parseRecordAux]

theorem joinComma_cons_cons (x y : List Char) (ys : List (List Char)) :
    joinComma (x :: y :: ys) = x ++ ',' :: joinComma (y :: ys) := by
  simp only [joinComma]

theorem parseCell_fuel_bound (s : String) (tail0 : List Char) :
    (escapeQuotes s.data).length < (writeCell s ++ tail0).length + 1 := by
  have h1 := escapeQuotes_length_le_writeCell s
  rw [List.length_append]
  omega

/-- The image of one written record line after universal-newline
translation: the cells joined by commas, terminated by a bare `\n`. -/
def lineLF (cells : List String) : List Char :=
  joinComma (cells.map writeCell) ++ ['\n']

theorem parseRecordAux_writeLine : ∀ (cells : List String) (r : List Char)
    (fuel : ℕ), cells ≠ [] → cells.length ≤ fuel →
    parseRecordAux fuel (lineLF cells ++ r) = some (cells, r) := by
  intro cells
  induction cells with
  | nil => intro r fuel hne _; exact absurd rfl hne
  | cons c cs ih =>
    intro r fuel _ hfuel
    cases fuel with
    | zero => simp at hfuel
    | succ f =>
      cases cs with
      | nil =>
        have hshape : lineLF [c] ++ r = writeCell c ++ '\n' :: r := by
          unfold lineLF joinComma
          simp
        rw [hshape, parseRecordAux_succ,
          parseCell_writeCell c '\n' r _ (by decide) (by decide)
            (parseCell_fuel_bound c _)]
        rfl
      | cons c2 cs2 =>
        have hshape : lineLF (c :: c2 :: cs2) ++ r =
            writeCell c ++ ',' :: (lineLF (c2 :: cs2) ++ r) := by
          unfold lineLF
          simp only [List.map_cons]
          rw [joinComma_cons_cons]
          simp
        rw [hshape, parseRecordAux_succ,
          parseCell_writeCell c ',' (lineLF (c2 :: cs2) ++ r) _
            (by decide) (by decide) (parseCell_fuel_bound c _)]
        show (if ',' = ',' then
            match parseRecordAux f (lineLF (c2 :: cs2) ++ r) with
            | some (cells, rest3) => some (⟨c.data⟩ :: cells, rest3)
            | none => none
          else _) = some (c :: c2 :: cs2, r)
        rw [if_pos rfl, ih r f (by simp) (by simp at hfuel ⊢; omega)]

theorem joinComma_length_ge : ∀ ls : List (List Char),
    ls.length ≤ (joinComma ls).length + 1 := by
  intro ls
  induction ls with
  | nil => simp [joinComma]
  | cons x ys ih =>
    cases ys with
    | nil => simp [joinComma]
    | cons y ys2 =>
      rw [joinComma_cons_cons]
      simp only [List.length_cons, List.length_append] at ih ⊢
      omega

theorem lineLF_length (cells : List String) :
    cells.length ≤ (lineLF cells).length ∧ 1 ≤ (lineLF cells).length := by
  unfold lineLF
  rw [List.length_append]
  have h := joinComma_length_ge (cells.map writeCell)
  rw [List.length_map] at h
  simp only [List.length_singleton]
  omega

theorem parseRecordsAux_succ (f : ℕ) (cs : List Char) :
    parseRecordsAux (f + 1) cs =
      if cs = [] then some []
      else
        match parseRecordAux (cs.length + 1) cs with
        | some (cells, rest) => (parseRecordsAux f rest).map (fun rs => cells :: rs)
        | none => none := by
  simp only [parseRecordsAux]

theorem parseRecordsAux_write : ∀ (rows : List (List String)) (fuel : ℕ),
    (∀ row ∈ rows, row ≠ []) → rows.length < fuel →
    parseRecordsAux fuel ((rows.map lineLF).flatten) = some rows := by
  intro rows
  induction rows with
  | nil =>
    intro fuel _ hfuel
    cases fuel with
    | zero => omega
    | succ f =>
      rw [parseRecordsAux_succ]
      simp
  | cons row rows2 ih =>
    intro fuel h hfuel
    cases fuel with
    | zero => omega
    | succ f =>
      rw [List.map_cons, List.flatten_cons, parseRecordsAux_succ]
      have hlinelen := lineLF_length row
      have hne : lineLF row ++ (rows2.map lineLF).flatten ≠ [] := by
        intro hnil
        have := congrArg List.length hnil
        rw [List.length_append] at this
        simp only [List.length_nil] at this
        omega
      rw [if_neg hne,
        parseRecordAux_writeLine row ((rows2.map lineLF).flatten)
          ((lineLF row ++ (rows2.map lineLF).flatten).length + 1)
          (h row (List.mem_cons_self _ _))
          (by rw [List.length_append]; omega)]
      show (parseRecordsAux f ((rows2.map lineLF).flatten)).map
        (fun rs => row :: rs) = some (row :: rows2)
      rw [ih f (fun x hx => h x (List.mem_cons_of_mem _ hx))
        (by simp only [List.length_cons] at hfuel; omega)]
      rfl

theorem entryCells_ne_nil (e : ReviewEntry) : entryCells e ≠ [] := by
  simp [entryCells]

theorem flatten_lines_length_ge : ∀ rows : List (List String),
    rows.length ≤ ((rows.map lineLF).flatten).length := by
  intro rows
  induction rows with
  | nil => simp
  | cons row rows2 ih =>
    rw [List.map_cons, List.flatten_cons, List.length_append]
    have := lineLF_length row
    simp only [List.length_cons]
    omega

theorem unl_cons_ne (c : Char) (t : List Char) (h : ¬ c = '\r') :
    universalNewlines (c :: t) = c :: universalNewlines t := by
  cases t with
  | nil => simp only [universalNewlines, if_neg h]
  | cons c2 r => simp only [universalNewlines, if_neg h]

theorem unl_crlf (r : List Char) :
    universalNewlines ('\r' :: '\n' :: r) = '\n' :: universalNewlines r := rfl

theorem unl_append_crlf : ∀ (l : List Char), '\r' ∉ l → ∀ r : List Char,
    universalNewlines (l ++ '\r' :: '\n' :: r) = l ++ '\n' :: universalNewlines r := by
  intro l
  induction l with
  | nil => intro _ r; exact unl_crlf r
  | cons c t ih =>
    intro h r
    have hc : ¬ c = '\r' := fun hh => h (List.mem_cons.mpr (Or.inl hh.symm))
    rw [List.cons_append, unl_cons_ne c _ hc,
      ih (fun hm => h (List.mem_cons_of_mem _ hm)) r, List.cons_append]

theorem mem_escapeQuotes : ∀ (cs : List Char) (c : Char),
    c ∈ escapeQuotes cs → c ∈ cs ∨ c = '"' := by
  intro cs
  induction cs with
  | nil => intro c h; simp [escapeQuotes] at h
  | cons x t ih =>
    intro c h
    by_cases hx : x = '"'
    · simp only [escapeQuotes] at h
      rw [if_pos hx] at h
      rcases List.mem_cons.mp h with rfl | h2
      · exact Or.inr rfl
      · rcases List.mem_cons.mp h2 with rfl | h3
        · exact Or.inr rfl
        · rcases ih c h3 with h4 | h4
          · exact Or.inl (List.mem_cons_of_mem _ h4)
          · exact Or.inr h4
    · simp only [escapeQuotes] at h
      rw [if_neg hx] at h
      rcases List.mem_cons.mp h with rfl | h2
      · exact Or.inl (List.mem_cons_self _ _)
      · rcases ih c h2 with h4 | h4
        · exact Or.inl (List.mem_cons_of_mem _ h4)
        · exact Or.inr h4

theorem mem_writeCell (s : String) (c : Char) (h : c ∈ writeCell s) :
    c ∈ s.data ∨ c = '"' := by
  unfold writeCell at h
  by_cases hq : needsQuoting s
  · rw [if_pos hq] at h
    rcases List.mem_cons.mp h with rfl | h2
    · exact Or.inr rfl
    · rcases List.mem_append.mp h2 with h3 | h3
      · exact mem_escapeQuotes s.data c h3
      · simp at h3
        exact Or.inr h3
  · rw [if_neg hq] at h
    exact Or.inl h

theorem mem_joinComma : ∀ (ls : List (List Char)) (c : Char),
    c ∈ joinComma ls → c = ',' ∨ ∃ l ∈ ls, c ∈ l := by
  intro ls
  induction ls with
  | nil => intro c h; simp [joinComma] at h
  | cons x t ih =>
    intro c h
    cases t with
    | nil =>
      rw [show joinComma [x] = x from rfl] at h
      exact Or.inr ⟨x, List.mem_cons_self _ _, h⟩
    | cons y t2 =>
      rw [joinComma_cons_cons] at h
      rcases List.mem_append.mp h with h1 | h2
      · exact Or.inr ⟨x, List.mem_cons_self _ _, h1⟩
      · rcases List.mem_cons.mp h2 with rfl | h3
        · exact Or.inl rfl
        · rcases ih c h3 with h4 | ⟨l, hl, hcl⟩
          · exact Or.inl h4
          · exact Or.inr ⟨l, List.mem_cons_of_mem _ hl, hcl⟩

theorem noCR_joinComma (cells : List String)
    (h : ∀ s ∈ cells, '\r' ∉ s.data) :
    '\r' ∉ joinComma (cells.map writeCell) := by
  intro hmem
  rcases mem_joinComma _ _ hmem with hc | ⟨l, hl, hcl⟩
  · exact absurd hc (by decide)
  · rcases List.mem_map.mp hl with ⟨s, hs, rfl⟩
    rcases mem_writeCell s _ hcl with hin | hq
    · exact h s hs hin
    · exact absurd hq (by decide)

theorem unl_lineLF (cells : List String) (h : ∀ s ∈ cells, '\r' ∉ s.data)
    (r : List Char) :
    universalNewlines (writeRecordLine cells ++ r) =
      lineLF cells ++ universalNewlines r := by
  unfold writeRecordLine lineLF
  rw [List.append_assoc,
    show (['\r', '\n'] : List Char) ++ r = '\r' :: '\n' :: r from rfl,
    unl_append_crlf _ (noCR_joinComma cells h) r,
    List.append_assoc]
  rfl

theorem unl_flatten : ∀ (rows : List (List String)) (r : List Char),
    (∀ row ∈ rows, ∀ s ∈ row, '\r' ∉ s.data) →
    universalNewlines ((rows.map writeRecordLine).flatten ++ r) =
      (rows.map lineLF).flatten ++ universalNewlines r := by
  intro rows
  induction rows with
  | nil => intro r _; simp
  | cons row rows2 ih =>
    intro r h
    rw [List.map_cons, List.flatten_cons, List.append_assoc,
      unl_lineLF row (h row (List.mem_cons_self _ _)),
      ih _ (fun x hx => h x (List.mem_cons_of_mem _ hx)),
      List.map_cons, List.flatten_cons, List.append_assoc]

theorem noCR_ratToDecimalString (q : ℚ) : '\r' ∉ (ratToDecimalString q).data := by
  have hdig : ∀ n : ℕ, '\r' ∉ natRepr n := fun n hn =>
    absurd (natRepr_all_digits n '\r' hn) (by decide)
  intro hmem
  rcases List.mem_append.mp hmem with h1 | h2
  · rcases List.mem_append.mp h1 with h3 | h4
    · by_cases hneg : q.num < 0
      · rw [if_pos hneg] at h3
        simp at h3
      · rw [if_neg hneg] at h3
        simp at h3
    · exact hdig _ h4
  · rcases List.mem_cons.mp h2 with heq | h5
    · exact absurd heq (by decide)
    · by_cases hk : decExp q.den = 0
      · rw [if_pos hk] at h5
        simp at h5
      · rw [if_neg hk] at h5
        rcases List.mem_append.mp h5 with h6 | h7
        · exact absurd (List.eq_of_mem_replicate h6) (by decide)
        · exact hdig _ h7

/-- A record is carriage-return-free: none of its eight string fields
contains `\r`.  Exactly these records survive the read-back unchanged,
because the universal-newline layer rewrites every `\r` it meets. -/
def entryNoCR (e : ReviewEntry) : Prop :=
  '\r' ∉ e.original_filename.data ∧ '\r' ∉ e.suggested_title.data ∧
  '\r' ∉ e.suggested_author.data ∧ '\r' ∉ e.new_filename.data ∧
  '\r' ∉ e.approve.data ∧ '\r' ∉ e.language.data ∧
  '\r' ∉ e.edition.data ∧ '\r' ∉ e.notes.data

instance (e : ReviewEntry) : Decidable (entryNoCR e) := by
  unfold entryNoCR
  infer_instance

theorem entryCells_noCR (e : ReviewEntry) (h : entryNoCR e) :
    ∀ s ∈ entryCells e, '\r' ∉ s.data := by
  obtain ⟨h1, h2, h3, h4, h5, h6, h7, h8⟩ := h
  intro s hs
  simp only [entryCells, List.mem_cons, List.not_mem_nil, or_false] at hs
  rcases hs with rfl | rfl | rfl | rfl | rfl | rfl | rfl | rfl | rfl
  · exact h1
  · exact h2
  · exact h3
  · exact h4
  · exact noCR_ratToDecimalString e.confidence
  · exact h5
  · exact h6
  · exact h7
  · exact h8

theorem parseCsv_write_csv (entries : List ReviewEntry)
    (hcr : ∀ e ∈ entries, entryNoCR e) :
    parseCsv ⟨universalNewlines (write_csv entries).data⟩ =
      some (FIELDNAMES :: entries.map entryCells) := by
  have hrowsCR : ∀ row ∈ FIELDNAMES :: entries.map entryCells,
      ∀ s ∈ row, '\r' ∉ s.data := by
    intro row hrow
    rcases List.mem_cons.mp hrow with rfl | hrow2
    · intro s hs
      simp only [FIELDNAMES, List.mem_cons, List.not_mem_nil, or_false] at hs
      rcases hs with rfl | rfl | rfl | rfl | rfl | rfl | rfl | rfl | rfl <;> decide
    · rcases List.mem_map.mp hrow2 with ⟨e, he, rfl⟩
      exact entryCells_noCR e (hcr e he)
  have hbody : (write_csv entries).data =
      '﻿' :: (((FIELDNAMES :: entries.map entryCells).map writeRecordLine).flatten
        ++ []) := by
    rw [List.map_cons, List.flatten_cons, List.map_map, List.append_nil]
    rfl
  have hdata : universalNewlines (write_csv entries).data =
      '﻿' :: ((FIELDNAMES :: entries.map entryCells).map lineLF).flatten := by
    rw [hbody, unl_cons_ne _ _ (by decide),
      unl_flatten (FIELDNAMES :: entries.map entryCells) [] hrowsCR,
      show universalNewlines ([] : List Char) = [] from rfl, List.append_nil]
  rw [hdata]
  unfold parseCsv
  rw [if_pos (show (String.mk ('﻿' ::
      ((FIELDNAMES :: entries.map entryCells).map lineLF).flatten)).data.head? =
      some '﻿' from rfl), List.tail_cons]
  apply parseRecordsAux_write
  · intro row hrow
    rcases List.mem_cons.mp hrow with rfl | hrow2
    · simp [FIELDNAMES]
    · rcases List.mem_map.mp hrow2 with ⟨e, _, rfl⟩
      exact entryCells_ne_nil e
  · have := flatten_lines_length_ge (FIELDNAMES :: entries.map entryCells)
    omega

theorem rowToEntry_entryCells (e : ReviewEntry) (h : e.confidence.den ∣ 10 ^ 30) :
    rowToEntry FIELDNAMES (entryCells e) =
      some { e with approve := strLower (pyStrip e.approve) } := by
  have hred : rowToEntry FIELDNAMES (entryCells e) =
      (parseFloat? (ratToDecimalString e.confidence)).map (fun c =>
        { original_filename := e.original_filename
          suggested_title := e.suggested_title
          suggested_author := e.suggested_author
          new_filename := e.new_filename
          confidence := c
          approve := strLower (pyStrip e.approve)
          language := e.language
          edition := e.edition
          notes := e.notes }) := rfl
  rw [hred, parseFloat_ratToDecimal e.confidence h]
  rfl

theorem read_csv_rows (entries : List ReviewEntry)
    (h : ∀ e ∈ entries, e.confidence.den ∣ 10 ^ 30) :
    (entries.map entryCells).foldr (fun row acc =>
      match rowToEntry FIELDNAMES row, acc with
      | some e, some l => some (e :: l)
      | _, _ => none) (some []) =
      some (entries.map (fun e => { e with approve := strLower (pyStrip e.approve) })) := by
  induction entries with
  | nil => rfl
  | cons e es ih =>
    simp only [List.map_cons, List.foldr_cons]
    rw [ih (fun x hx => h x (List.mem_cons_of_mem _ hx)),
      rowToEntry_entryCells e (h e (List.mem_cons_self _ _))]

/-- Claim C5 (amended): CSV round trip.  For every list of review records
whose confidence values have a finite decimal representation (denominator
dividing `10 ^ 30`, covering every float the pipeline produces) and whose
string fields contain no carriage return, writing the review CSV with
`write_csv` and reading it back with `read_csv` succeeds and returns the
records in order with every field unchanged, except that the approval field
comes back trimmed and lowercased (`approve.strip().lower()`), exactly as
`read_csv` normalises it.  The carriage-return condition is forced: the
reader opens the file without `newline=''`, so Python's universal-newline
layer rewrites `\r` and `\r\n` inside quoted fields to `\n`
(`claim_C5_counterexample`). -/
theorem claim_C5_csv_round_trip (entries : List ReviewEntry)
    (h : ∀ e ∈ entries, (e.confidence.den : ℕ) ∣ 10 ^ 30)
    (hcr : ∀ e ∈ entries, entryNoCR e) :
    read_csv (write_csv entries) =
      some (entries.map (fun e => { e with approve := strLower (pyStrip e.approve) })) := by
  unfold read_csv
  rw [parseCsv_write_csv entries hcr]
  exact read_csv_rows entries h

set_option maxRecDepth 40000 in
/-- Counterexample to claim C5 as stated: a record whose notes field contains
a carriage return (`"x\ry"`) does not survive the round trip — the
universal-newline layer of the reader's `open` turns the quoted `\r` into
`\n`, so the notes field comes back altered (the claim says every field other
than the normalised approval field is unchanged). -/
theorem claim_C5_counterexample :
    (read_csv (write_csv
      [⟨"a.pdf", "T", "A", "n.pdf", mkRat 1 2, "yes", "", "", "x\ry"⟩])).map
        (fun l => l.map (fun e => e.notes)) ≠ some ["x\ry"] := by
  decide

theorem claim_C5_csv_round_trip_witness :
    read_csv (write_csv
      [⟨"scan_001.pdf", "Book, \"First\"", "Doe", "Book - Doe.pdf",
        mkRat 19 20, " Yes ", "en", "2nd", "good copy"⟩]) =
    some [⟨"scan_001.pdf", "Book, \"First\"", "Doe", "Book - Doe.pdf",
        mkRat 19 20, "yes", "en", "2nd", "good copy"⟩] := by
  have h := claim_C5_csv_round_trip
    [⟨"scan_001.pdf", "Book, \"First\"", "Doe", "Book - Doe.pdf",
      mkRat 19 20, " Yes ", "en", "2nd", "good copy"⟩]
    (by intro e he; simp only [List.mem_singleton] at he; subst he; decide)
    (by intro e he; simp only [List.mem_singleton] at he; subst he; decide)
  exact h
